import Mathlib

/-!
# SkipList (src/src/skiplist.h): a shallow embedding and its verification

The C++ class `SkipList<KeyType>` is a pointer structure: a head node and key
nodes, each carrying a flexible array `_next[]` of forward pointers.  The
embedding keeps that shape.

* Memory is a map from addresses to nodes (`mem`); `operator new` hands out the
  address `brk` and increments it, `operator delete` clears the cell.
* A pointer is `Option Nat` (`none` is `NULL`).
* Every operation returns an `Option`: `none` stands for a run that does not
  return normally (a null or dangling dereference, an access to `_next[i]` with
  `i` outside the node, a read of a link or of a slot of `prev` that was never written, a
  `while (1)` loop that exhausts its fuel, a height loop that never draws a
  stop).
* `KeyType` is any linearly ordered type; `size_t` values are naturals, and the
  decrement wraps at zero as it does in C++.  The increments `height++` and
  `times++` are not wrapped: `height` wraps only after `2 ^ 64 - 1` consecutive
  zero draws, and `times` is bounded by the number of nodes.
* The generator `_mt` together with `_dis` is the list of the draws to come.
-/

namespace SkipList

/-- A pointer to a node: `none` is `NULL`. -/
abbrev Ptr := Option Nat

/-- The largest value of `size_t`. -/
def SIZE_MAX : Nat := 2 ^ 64 - 1

/-- The decrement of a `size_t` (`level--`, `_current_height - 1`): wraps at 0. -/
def size_dec (x : Nat) : Nat := if x = 0 then SIZE_MAX else x - 1

/-- The class `Node`: `_key` is `none` when the constructor `Node(size_t)` left it
uninitialised (the head); `_next` is the flexible array, valid below `_height`, and
`_next i = none` as long as the link has not been written (`operator new` leaves the links
uninitialised). -/
structure Node (K : Type) where
  _key : Option K
  _height : Nat
  _next : Nat → Option Ptr

/-- `Node::get_next(level)`: `none` when `level` is outside the array or the link was
never written. -/
def Node.get_next {K : Type} (n : Node K) (level : Nat) : Option Ptr :=
  if level < n._height then n._next level else none

/-- `Node::set_next(level, next)`: `none` when `level` is outside the array. -/
def Node.set_next {K : Type} (n : Node K) (level : Nat) (next : Ptr) : Option (Node K) :=
  if level < n._height then
    some { n with _next := Function.update n._next level (some next) }
  else none

/-- `Node::get_key()`: `none` when the key was never initialised. -/
def Node.get_key {K : Type} (n : Node K) : Option K := n._key

/-- `Node::get_height()`. -/
def Node.get_height {K : Type} (n : Node K) : Nat := n._height

/-- The memory: the node stored at each live address. -/
abbrev Mem (K : Type) := Nat → Option (Node K)

/-- `p->get_next(level)` for a non-null `p`. -/
def get_next {K : Type} (mem : Mem K) (p : Nat) (level : Nat) : Option Ptr :=
  (mem p).bind fun n => n.get_next level

/-- `p->set_next(level, next)` for a non-null `p`. -/
def set_next {K : Type} (mem : Mem K) (p : Nat) (level : Nat) (next : Ptr) : Option (Mem K) :=
  ((mem p).bind fun n => n.set_next level next).map fun n => Function.update mem p (some n)

/-- `p->get_key()` for a non-null `p`. -/
def get_key {K : Type} (mem : Mem K) (p : Nat) : Option K :=
  (mem p).bind fun n => n.get_key

/-- `p->get_height()` for a non-null `p`. -/
def get_height {K : Type} (mem : Mem K) (p : Nat) : Option Nat :=
  (mem p).map fun n => n.get_height

/-- The local array `Node *prev[_max_height]`: `slot i = none` while `prev[i]` has
not been written. -/
structure PrevArr where
  size : Nat
  slot : Nat → Option Nat

/-- The declaration `Node *prev[_max_height]`. -/
def PrevArr.fresh (size : Nat) : PrevArr := { size := size, slot := fun _ => none }

/-- The assignment `prev[i] = p`. -/
def PrevArr.write (prev : PrevArr) (i : Nat) (p : Nat) : Option PrevArr :=
  if i < prev.size then some { prev with slot := Function.update prev.slot i (some p) } else none

/-- The read of `prev[i]`: `none` outside the array or when never written. -/
def PrevArr.read (prev : PrevArr) (i : Nat) : Option Nat :=
  if i < prev.size then prev.slot i else none

end SkipList

/-- The class `SkipList<KeyType>` with the memory its nodes live in (`mem`, `brk`). -/
structure SkipList (K : Type) where
  mem : SkipList.Mem K
  brk : Nat
  _head_node : Nat
  _current_height : Nat
  _max_height : Nat
  _mt : List Nat

namespace SkipList

section Model

variable {K : Type}

/-- The initialisation loop of `new_node`: `set_next(i, NULL)` for `i < max_level`. -/
def new_node_init (max_level : Nat) (n : Node K) : Option (Node K) :=
  (List.range max_level).foldlM (fun n i => n.set_next i none) n

/-- `new_node(max_level)` and `new_node(max_level, key)`: the new address and the
memory after the allocation.  The constructor of `Node` sets the key and the height and
leaves every link unwritten; the loop then writes `NULL` in each of them. -/
def new_node (mem : Mem K) (brk : Nat) (max_level : Nat) (key : Option K) :
    Option (Nat × Mem K × Nat) :=
  (new_node_init max_level { _key := key, _height := max_level, _next := fun _ => none }).map
    fun n => (brk, Function.update mem brk (some n), brk + 1)

/-- `delete_node(node)`. -/
def delete_node (mem : Mem K) (node : Ptr) : Mem K :=
  match node with
  | none => mem
  | some a => Function.update mem a none

/-- The constructor `SkipList(max_height)`; `seed` is what the generator will draw. -/
def new (max_height : Nat) (seed : List Nat) : Option (SkipList K) :=
  (new_node (fun _ => none) 0 max_height none).map fun r =>
    { mem := r.2.1, brk := r.2.2, _head_node := r.1, _current_height := 0,
      _max_height := max_height, _mt := seed }

/-- The loop `while (_dis(_mt) == 0) height++` of `get_random_height`. -/
def draw_height : List Nat → Nat → Option (Nat × List Nat)
  | [], _ => none
  | d :: mt, height => if d = 0 then draw_height mt (height + 1) else some (height, mt)

/-- `get_random_height()`: the height and the generator afterwards. -/
def get_random_height (max_height : Nat) (mt : List Nat) : Option (Nat × List Nat) :=
  (draw_height mt 1).map fun r => (if r.1 > max_height then max_height else r.1, r.2)

variable [LinearOrder K]

/-- The `while (1)` loop of `find_largest_lower_bound`. -/
def fllb_loop (mem : Mem K) (key : K) : Nat → PrevArr → Nat → Nat → Ptr → Option PrevArr
  | 0, _, _, _, _ => none
  | fuel + 1, prev, level, node, next_node =>
    (match next_node with
      | none => some true
      | some nx => (get_key mem nx).map fun k => decide (k ≥ key)).bind fun stop =>
    if stop then
      (prev.write level node).bind fun prev =>
      if level = 0 then some prev
      else
        (get_next mem node (size_dec level)).bind fun next_node =>
        fllb_loop mem key fuel prev (size_dec level) node next_node
    else
      next_node.bind fun node =>
      (get_next mem node level).bind fun next_node =>
      fllb_loop mem key fuel prev level node next_node

/-- The fuel given to the `while (1)` loops: every iteration moves to a node not
seen before or goes down one level. -/
def fuel (s : SkipList K) : Nat := s.brk + s._current_height

/-- `find_largest_lower_bound(prev, key)`. -/
def find_largest_lower_bound (s : SkipList K) (prev : PrevArr) (key : K) : Option PrevArr :=
  if s._current_height = 0 then some prev
  else
    (get_next s.mem s._head_node (size_dec s._current_height)).bind fun next_node =>
    fllb_loop s.mem key s.fuel prev (size_dec s._current_height) s._head_node next_node

/-- The `while (1)` loop of `contain(key, print_times)`, with the counter `times`. -/
def contain_loop (mem : Mem K) (key : K) : Nat → Nat → Nat → Ptr → Nat → Option (Bool × Nat)
  | 0, _, _, _, _ => none
  | fuel + 1, level, node, next_node, times =>
    match next_node with
    | none =>
      if level = 0 then some (false, times + 1)
      else
        (get_next mem node (size_dec level)).bind fun next_node =>
        contain_loop mem key fuel (size_dec level) node next_node (times + 1)
    | some nx =>
      (get_key mem nx).bind fun next_key =>
      if next_key = key then some (true, times + 1)
      else if next_key > key then
        if level = 0 then some (false, times + 1)
        else
          (get_next mem node (size_dec level)).bind fun next_node =>
          contain_loop mem key fuel (size_dec level) node next_node (times + 1)
      else
        (get_next mem nx level).bind fun next_node =>
        contain_loop mem key fuel level nx next_node (times + 1)

/-- `contain(key, print_times)`: the answer and the value of `times` it would print. -/
def contain_times (s : SkipList K) (key : K) : Option (Bool × Nat) :=
  if s._current_height = 0 then some (false, 0)
  else
    (get_next s.mem s._head_node (size_dec s._current_height)).bind fun next_node =>
    contain_loop s.mem key s.fuel (size_dec s._current_height) s._head_node next_node 0

/-- `contain(key)`. -/
def contain (s : SkipList K) (key : K) : Option Bool :=
  (contain_times s key).map Prod.fst

/-- The loop `for (level = _current_height; level < height; ++level) prev[level] = _head_node`
of `insert`. -/
def fill_head (head : Nat) (lo hi : Nat) (prev : PrevArr) : Option PrevArr :=
  (List.range (hi - lo)).foldlM (fun prev d => prev.write (lo + d) head) prev

/-- The splice loop of `insert`: for `i < height`,
`curr->set_next(i, prev[i]->get_next(i)); prev[i]->set_next(i, curr)`. -/
def splice_in (prev : PrevArr) (curr : Nat) (height : Nat) (mem : Mem K) : Option (Mem K) :=
  (List.range height).foldlM (fun mem i =>
    (prev.read i).bind fun p =>
    (get_next mem p i).bind fun nx =>
    (set_next mem curr i nx).bind fun mem =>
    set_next mem p i (some curr)) mem

/-- `insert(key)`. -/
def insert (s : SkipList K) (key : K) : Option (Bool × SkipList K) :=
  (contain s key).bind fun found =>
  if found then some (false, s)
  else
    (get_random_height s._max_height s._mt).bind fun hr =>
    let height := hr.1
    let s := { s with _mt := hr.2 }
    (find_largest_lower_bound s (PrevArr.fresh s._max_height) key).bind fun prev =>
    (if height > s._current_height then
        (fill_head s._head_node s._current_height height prev).map fun prev =>
          (prev, { s with _current_height := height })
      else some (prev, s)).bind fun ps =>
    let prev := ps.1
    let s := ps.2
    (new_node s.mem s.brk height (some key)).bind fun r =>
    let curr := r.1
    (splice_in prev curr height r.2.1).map fun mem =>
    (true, { s with mem := mem, brk := r.2.2 })

/-- The unlink loop of `remove`: for `i < node->get_height()`,
`prev[i]->set_next(i, node->get_next(i))`. -/
def splice_out (prev : PrevArr) (node : Nat) (height : Nat) (mem : Mem K) : Option (Mem K) :=
  (List.range height).foldlM (fun mem i =>
    (prev.read i).bind fun p =>
    (get_next mem node i).bind fun nx =>
    set_next mem p i nx) mem

/-- The loop `while (!node)` at the end of `remove`; the result is `_current_height`. -/
def shrink_loop (mem : Mem K) (head : Nat) : Nat → Nat → Ptr → Option Nat
  | 0, _, _ => none
  | fuel + 1, current_height, node =>
    match node with
    | some _ => some current_height
    | none =>
      if size_dec current_height = 0 then some (size_dec current_height)
      else
        (get_next mem head (size_dec (size_dec current_height))).bind fun node =>
        shrink_loop mem head fuel (size_dec current_height) node

/-- `remove(key)`. -/
def remove (s : SkipList K) (key : K) : Option (Bool × SkipList K) :=
  (contain s key).bind fun found =>
  if !found then some (false, s)
  else
    (find_largest_lower_bound s (PrevArr.fresh s._max_height) key).bind fun prev =>
    (prev.read 0).bind fun p0 =>
    (get_next s.mem p0 0).bind fun node =>
    (match node with
      | none => some s.mem
      | some a => (get_height s.mem a).bind fun h => splice_out prev a h s.mem).bind fun mem =>
    let mem := delete_node mem node
    (get_next mem s._head_node (size_dec s._current_height)).bind fun top =>
    (shrink_loop mem s._head_node (s._current_height + 1) s._current_height top).map fun ch =>
    (true, { s with mem := mem, _current_height := ch })

/-- The inner loop of `operator<<`: the nodes met from `node` on by `get_next(level)`. -/
def walk (mem : Mem K) (level : Nat) : Nat → Ptr → Option (List Nat)
  | _, none => some []
  | 0, some _ => none
  | fuel + 1, some a => (get_next mem a level).bind fun nx => (walk mem level fuel nx).map fun r => a :: r

/-- The chain of level `level`: the addresses met from `_head_node->get_next(level)` on. -/
def chain (s : SkipList K) (level : Nat) : Option (List Nat) :=
  (get_next s.mem s._head_node level).bind fun first => walk s.mem level s.brk first

/-- The key and the height of each node of the chain of level `level`. -/
def level_entries (s : SkipList K) (level : Nat) : Option (List (K × Nat)) :=
  (chain s level).bind fun c => c.mapM fun a =>
    (get_key s.mem a).bind fun k => (get_height s.mem a).map fun h => (k, h)

/-- The keys of the chain of level `level`, in the order `operator<<` prints them. -/
def level_keys (s : SkipList K) (level : Nat) : Option (List K) :=
  (level_entries s level).map fun es => es.map Prod.fst

/-- The calls `insert(k)` for the keys of a list, in order: the results and the final state. -/
def insert_all (s : SkipList K) : List K → Option (List Bool × SkipList K)
  | [] => some ([], s)
  | k :: ks => (insert s k).bind fun r => (insert_all r.2 ks).map fun q => (r.1 :: q.1, q.2)

/-- For each key of a list, whether it occurs neither in `seen` nor earlier in the list. -/
def fresh_flags (seen : List K) : List K → List Bool
  | [] => []
  | k :: ks => decide (k ∉ seen) :: fresh_flags (k :: seen) ks

/-- The values of `_current_height` at which the loop `while (!node)` of `remove`
executes `_current_height--`, and those at which it then reads
`_head_node->get_next(_current_height - 1)`. -/
def shrink_trace (mem : Mem K) (head : Nat) : Nat → Nat → Ptr → List Nat
  | 0, _, _ => []
  | fuel + 1, current_height, node =>
    match node with
    | some _ => []
    | none =>
      current_height ::
        (if size_dec current_height = 0 then []
        else
          size_dec current_height ::
            match get_next mem head (size_dec (size_dec current_height)) with
            | none => []
            | some node => shrink_trace mem head fuel (size_dec current_height) node)

/-- The calls `remove(k)` for the keys of a list, in order: the results and the final state. -/
def remove_all (s : SkipList K) : List K → Option (List Bool × SkipList K)
  | [] => some ([], s)
  | k :: ks => (remove s k).bind fun r => (remove_all r.2 ks).map fun q => (r.1 :: q.1, q.2)

/-- What `operator<<` sends to the stream: a string literal, the level number, a key, or
`std::endl`. -/
inductive Tok (K : Type) where
  | text (str : String)
  | num (n : Nat)
  | key (k : K)
  | endl
  deriving DecidableEq

/-- Whether a token is `std::endl`. -/
def Tok.is_endl : Tok K → Bool
  | Tok.endl => true
  | _ => false

/-- The inner loop of `operator<<`: `while (node) { os << " " << node->get_key(); ... }`. -/
def print_chain (mem : Mem K) (level : Nat) : Nat → Ptr → Option (List (Tok K))
  | _, none => some []
  | 0, some _ => none
  | fuel + 1, some a =>
    (get_key mem a).bind fun k =>
    (get_next mem a level).bind fun nx =>
    (print_chain mem level fuel nx).map fun r => Tok.text " " :: Tok.key k :: r

/-- The outer loop of `operator<<`: `for (level = ...; level > 0; --level)`. -/
def print_levels (s : SkipList K) : Nat → Option (List (Tok K))
  | 0 => some []
  | level + 1 =>
    (get_next s.mem s._head_node (size_dec (level + 1))).bind fun node =>
    (print_chain s.mem (size_dec (level + 1)) s.brk node).bind fun line =>
    (print_levels s level).map fun rest =>
      [Tok.text "Level ", Tok.num (level + 1), Tok.text ":"] ++ line ++ [Tok.endl] ++ rest

/-- `operator<<(os, sl)`: what is written to `os`. -/
def operator_out (s : SkipList K) : Option (List (Tok K)) :=
  print_levels s s._current_height

/-- The rendering of a list of keys as the spec words it: a space and the key, for each. -/
def render_keys : List K → List (Tok K)
  | [] => []
  | k :: ks => Tok.text " " :: Tok.key k :: render_keys ks

/-- The line of level `L` as the spec words it: the prefix, the keys of the entries of
height at least `L`, the end of line. -/
def render_line (es : List (K × Nat)) (L : Nat) : List (Tok K) :=
  [Tok.text "Level ", Tok.num L, Tok.text ":"] ++
    render_keys ((es.filter fun e => decide (L ≤ e.2)).map Prod.fst) ++ [Tok.endl]

/-- The rendering as the spec words it: one line per level, from `top` down to 1. -/
def render_spec (es : List (K × Nat)) : Nat → List (Tok K)
  | 0 => []
  | L + 1 => render_line es (L + 1) ++ render_spec es L

/-- The last node of the chain `c` whose key is below `key`, and the head when there is
none: what the spec says `prev[level]` is. -/
def last_below (s : SkipList K) (c : List Nat) (key : K) : Nat :=
  ((c.filter fun a =>
    match get_key s.mem a with
    | some x => decide (x < key)
    | none => false).getLast?).getD s._head_node

/-- For each key of a list, whether it is among the keys `stored` and was not removed by an
earlier call: what the calls `remove(k)` are to return. -/
def remove_flags (stored : List K) : List K → List Bool
  | [] => []
  | k :: ks => decide (k ∈ stored) :: remove_flags (stored.filter fun x => decide (x ≠ k)) ks

/-- The keys left of `stored` once the keys of a list are taken away. -/
def remove_keys (stored : List K) : List K → List K
  | [] => stored
  | k :: ks => remove_keys (stored.filter fun x => decide (x ≠ k)) ks

/-- The number of draws of the generator that end a height loop (the nonzero ones). -/
def stops (mt : List Nat) : Nat := (mt.filter fun d => decide (d ≠ 0)).length

/-- A sequence of draws for the examples: heights 2, 1, 3, 1, 1, 4. -/
def demo_seed : List Nat := [0, 1, 1, 0, 0, 1, 1, 1, 0, 0, 0, 0, 1]

/-- The list `SkipList<int>(4)` just after its construction. -/
def demo_new : SkipList Nat := (new 4 demo_seed).get (by decide)

/-- The list after `insert(5)`. -/
def demo_1 : SkipList Nat := ((insert demo_new 5).get (by decide)).2

/-- The list after `insert(5); insert(3)`. -/
def demo_2 : SkipList Nat := ((insert demo_1 3).get (by decide)).2

/-- The list after `insert(5); insert(3); insert(8)`: keys 3, 5, 8 of heights 1, 2, 3. -/
def demo : SkipList Nat := ((insert demo_2 8).get (by decide)).2

/-! ## The specification side: the list of entries a memory represents -/

/-- An entry of the list: the address of its node, its key and its height. -/
structure Entry (K : Type) where
  addr : Nat
  key : K
  height : Nat

/-- The first entry of `R` that takes part in level `l`. -/
def first_at (l : Nat) : List (Entry K) → Ptr
  | [] => none
  | e :: R => if l < e.height then some e.addr else first_at l R

/-- The node of height `height` whose successors are the entries `R`. -/
def node_of (key : Option K) (height : Nat) (R : List (Entry K)) : Node K :=
  { _key := key, _height := height,
    _next := fun l => if l < height then some (first_at l R) else none }

/-- The memory holds the entries `R`, each linked at each of its levels to the next
entry of that level. -/
def Linked (mem : Mem K) : List (Entry K) → Prop
  | [] => True
  | e :: R => mem e.addr = some (node_of (some e.key) e.height R) ∧ Linked mem R

/-- The largest height among the entries (0 when there is none). -/
def top_height : List (Entry K) → Nat
  | [] => 0
  | e :: R => max e.height (top_height R)

/-- The last node of level `l` before `key` in `R`, and `node` when there is none. -/
def pred_at (l : Nat) (key : K) : Nat → List (Entry K) → Nat
  | node, [] => node
  | node, e :: R =>
    if e.key < key then pred_at l key (if l < e.height then e.addr else node) R else node

/-- The entries with `e` added at its sorted position. -/
def ins (e : Entry K) : List (Entry K) → List (Entry K)
  | [] => [e]
  | x :: R => if x.key < e.key then x :: ins e R else e :: x :: R

/-- The entries without the first entry whose key is not below `key`. -/
def del (key : K) : List (Entry K) → List (Entry K)
  | [] => []
  | x :: R => if x.key < key then x :: del key R else R

/-- The node `n` at address `x` after the links `_next[l]` of the nodes `p l`, for
`l < h`, have been set to `v l`. -/
def relink (h : Nat) (p : Nat → Nat) (v : Nat → Ptr) (x : Nat) (n : Node K) : Node K :=
  { n with _next := fun l => if l < h ∧ x = p l then some (v l) else n._next l }

/-- The state `s` represents the entries `L`. -/
structure Rep (s : SkipList K) (L : List (Entry K)) : Prop where
  sorted : L.Pairwise fun a b => a.key < b.key
  nodup : (L.map Entry.addr).Nodup
  bounds : ∀ e ∈ L, e.addr < s.brk ∧ e.addr ≠ s._head_node ∧ 1 ≤ e.height ∧
    e.height ≤ s._max_height
  max_pos : 1 ≤ s._max_height
  head_lt : s._head_node < s.brk
  height_eq : s._current_height = top_height L
  head_node : s.mem s._head_node = some (node_of none s._max_height L)
  linked : Linked s.mem L
  free : ∀ x, x ≠ s._head_node → x ∉ L.map Entry.addr → s.mem x = none

/-- The states reached from a newly constructed list with `max_height ≥ 1` by calls
of `insert` and `remove` that return. -/
inductive Reachable : SkipList K → Prop
  | init (max_height : Nat) (seed : List Nat) (s : SkipList K) :
      1 ≤ max_height → new max_height seed = some s → Reachable s
  | insert (s : SkipList K) (key : K) (b : Bool) (t : SkipList K) :
      Reachable s → insert s key = some (b, t) → Reachable t
  | remove (s : SkipList K) (key : K) (b : Bool) (t : SkipList K) :
      Reachable s → remove s key = some (b, t) → Reachable t

end Model

/-! ## Reading a linked memory -/

section Reading

variable {K : Type}

theorem size_dec_pos {x : Nat} (h : 0 < x) : size_dec x = x - 1 := by
  unfold size_dec; rw [if_neg (by omega)]

theorem size_dec_succ (x : Nat) : size_dec (x + 1) = x := by
  rw [size_dec_pos (by omega)]; rfl

theorem get_next_node_of {M : Mem K} {a : Nat} {key : Option K} {h : Nat} {R : List (Entry K)}
    (hM : M a = some (node_of key h R)) {l : Nat} (hl : l < h) :
    get_next M a l = some (first_at l R) := by
  simp [get_next, hM, Node.get_next, node_of, hl]

theorem get_key_node_of {M : Mem K} {a : Nat} {key : Option K} {h : Nat} {R : List (Entry K)}
    (hM : M a = some (node_of key h R)) : get_key M a = key := by
  simp [get_key, hM, Node.get_key, node_of]

theorem get_height_node_of {M : Mem K} {a : Nat} {key : Option K} {h : Nat} {R : List (Entry K)}
    (hM : M a = some (node_of key h R)) : get_height M a = some h := by
  simp [get_height, hM, Node.get_height, node_of]

theorem first_at_eq_none {l : Nat} {R : List (Entry K)} :
    first_at l R = none ↔ top_height R ≤ l := by
  induction R with
  | nil => simp [first_at, top_height]
  | cons e R ih =>
    simp only [first_at, top_height]
    split
    · simp; omega
    · rw [ih]; omega

theorem first_at_mem {l : Nat} {R : List (Entry K)} {a : Nat} (h : first_at l R = some a) :
    a ∈ R.map Entry.addr := by
  induction R with
  | nil => simp [first_at] at h
  | cons e R ih =>
    simp only [first_at] at h
    split at h
    · simp at h; simp [h]
    · simp [ih h]

theorem walk_linked {M : Mem K} {l : Nat} {R : List (Entry K)} (hM : Linked M R) :
    ∀ fuel, R.length ≤ fuel →
      walk M l fuel (first_at l R) = some ((R.filter fun e => l < e.height).map Entry.addr) := by
  induction R with
  | nil => intro fuel _; cases fuel <;> simp [first_at, walk]
  | cons e R ih =>
    intro fuel hf
    obtain ⟨he, hR⟩ := hM
    by_cases hl : l < e.height
    · obtain ⟨f, rfl⟩ : ∃ f, fuel = f + 1 := ⟨fuel - 1, by simp at hf; omega⟩
      simp only [first_at, hl, if_true, walk, get_next_node_of he hl, Option.some_bind]
      rw [ih hR f (by simpa using hf)]
      simp [List.filter_cons, hl]
    · simp only [first_at, hl, if_false]
      rw [ih hR fuel (by simp at hf; omega)]
      simp [List.filter_cons, hl]

theorem first_at_split {l : Nat} {R : List (Entry K)} {a : Nat} (h : first_at l R = some a) :
    ∃ R1 e R2, R = R1 ++ e :: R2 ∧ e.addr = a ∧ l < e.height ∧ ∀ x ∈ R1, x.height ≤ l := by
  induction R with
  | nil => simp [first_at] at h
  | cons e R ih =>
    simp only [first_at] at h
    split at h
    · exact ⟨[], e, R, rfl, by simpa using h, by assumption, by simp⟩
    · obtain ⟨R1, x, R2, rfl, hx, hl, hR1⟩ := ih h
      refine ⟨e :: R1, x, R2, rfl, hx, hl, ?_⟩
      intro y hy
      rcases List.mem_cons.1 hy with rfl | hy
      · omega
      · exact hR1 y hy

theorem Linked.append_right {M : Mem K} {R1 R2 : List (Entry K)} (h : Linked M (R1 ++ R2)) :
    Linked M R2 := by
  induction R1 with
  | nil => exact h
  | cons e R1 ih => exact ih h.2

theorem top_height_eq_zero {R : List (Entry K)} (hh : ∀ e ∈ R, 1 ≤ e.height)
    (h : top_height R ≤ 0) : R = [] := by
  cases R with
  | nil => rfl
  | cons e R =>
    have := hh e (List.mem_cons_self _ _)
    simp only [top_height] at h
    omega

theorem Linked.mem_node {M : Mem K} {R : List (Entry K)} (h : Linked M R) :
    ∀ e ∈ R, ∃ R2, M e.addr = some (node_of (some e.key) e.height R2) := by
  induction R with
  | nil => intro e he; simp at he
  | cons x R ih =>
    intro e he
    rcases List.mem_cons.1 he with rfl | he
    · exact ⟨R, h.1⟩
    · exact ih h.2 e he

theorem mapM_entries {M : Mem K} {R : List (Entry K)}
    (h : ∀ e ∈ R, ∃ R2, M e.addr = some (node_of (some e.key) e.height R2)) :
    (R.map Entry.addr).mapM (fun a =>
        (get_key M a).bind fun k => (get_height M a).map fun h => (k, h))
      = some (R.map fun e => (e.key, e.height)) := by
  induction R with
  | nil => rfl
  | cons x R ih =>
    obtain ⟨R2, hx⟩ := h x (List.mem_cons_self _ _)
    simp only [List.map_cons, List.mapM_cons, get_key_node_of hx, get_height_node_of hx]
    rw [ih (fun e he => h e (List.mem_cons_of_mem _ he))]
    rfl

theorem length_le_of_nodup_lt {l : List Nat} {n : Nat} (hn : l.Nodup) (hl : ∀ x ∈ l, x < n) :
    l.length ≤ n := by
  have h1 : l.toFinset ⊆ Finset.range n := by
    intro x hx
    simp only [List.mem_toFinset] at hx
    simpa using hl x hx
  have h2 := Finset.card_le_card h1
  rw [List.toFinset_card_of_nodup hn] at h2
  simpa using h2

theorem le_top_height {R : List (Entry K)} {e : Entry K} (he : e ∈ R) :
    e.height ≤ top_height R := by
  induction R with
  | nil => simp at he
  | cons x R ih =>
    simp only [top_height]
    rcases List.mem_cons.1 he with rfl | he
    · omega
    · have := ih he; omega

theorem top_height_le {R : List (Entry K)} {n : Nat} (h : ∀ e ∈ R, e.height ≤ n) :
    top_height R ≤ n := by
  induction R with
  | nil => simp [top_height]
  | cons e R ih =>
    simp only [top_height]
    have := h e (List.mem_cons_self _ _)
    have := ih (fun x hx => h x (List.mem_cons_of_mem _ hx))
    omega

variable [LinearOrder K]

theorem contain_loop_linked (M : Mem K) (key : K) :
    ∀ (fuel : Nat) (R : List (Entry K)) (level node times : Nat),
      Linked M R → R.Pairwise (fun a b => a.key < b.key) → (∀ e ∈ R, 1 ≤ e.height) →
      (∀ l, l ≤ level → get_next M node l = some (first_at l R)) →
      R.length + level + 1 ≤ fuel →
      ∃ t, contain_loop M key fuel level node (first_at level R) times
          = some (decide (∃ e ∈ R, e.key = key), t) ∧ t ≤ times + R.length + level + 1 := by
  intro fuel
  induction fuel with
  | zero => intro R level node times _ _ _ _ hf; omega
  | succ fuel ih =>
    intro R level node times hM hs hh hn hf
    cases hfa : first_at level R with
    | none =>
      by_cases hl : level = 0
      · subst hl
        have hR : R = [] := top_height_eq_zero hh (first_at_eq_none.1 hfa)
        subst hR
        exact ⟨times + 1, by simp [contain_loop], by omega⟩
      · have hd : size_dec level = level - 1 := size_dec_pos (by omega)
        obtain ⟨t, ht, hb⟩ := ih R (level - 1) node (times + 1) hM hs hh
          (fun l hl' => hn l (by omega)) (by omega)
        refine ⟨t, ?_, by omega⟩
        simp only [contain_loop, hl, if_false, hd, hn (level - 1) (by omega), Option.some_bind]
        exact ht
    | some nx =>
      obtain ⟨R1, e, R2, rfl, rfl, hle, hR1⟩ := first_at_split hfa
      have hM2 := hM.append_right
      have hk : get_key M e.addr = some e.key := get_key_node_of hM2.1
      have hs' := List.pairwise_append.1 hs
      have hs2 := List.pairwise_cons.1 hs'.2.1
      by_cases h1 : e.key = key
      · refine ⟨times + 1, ?_, by omega⟩
        have : ∃ x ∈ R1 ++ e :: R2, x.key = key := ⟨e, by simp, h1⟩
        rw [decide_eq_true this]
        simp [contain_loop, hk, h1]
      · by_cases h2 : e.key > key
        · by_cases hl : level = 0
          · subst hl
            have : ¬ ∃ x ∈ R1 ++ e :: R2, x.key = key := by
              rintro ⟨x, hx, rfl⟩
              rcases List.mem_append.1 hx with hx | hx
              · have := hR1 x hx
                have := hh x (by simp [hx])
                omega
              · rcases List.mem_cons.1 hx with rfl | hx
                · exact h1 rfl
                · exact absurd (hs2.1 x hx) (not_lt.2 (le_of_lt h2))
            refine ⟨times + 1, ?_, by omega⟩
            rw [decide_eq_false this]
            simp [contain_loop, hk, h1, h2]
          · have hd : size_dec level = level - 1 := size_dec_pos (by omega)
            obtain ⟨t, ht, hb⟩ := ih (R1 ++ e :: R2) (level - 1) node (times + 1) hM hs hh
              (fun l hl' => hn l (by omega)) (by omega)
            refine ⟨t, ?_, by omega⟩
            simp only [contain_loop, hk, Option.some_bind, h1, if_false, h2, if_true, hl, hd,
              hn (level - 1) (by omega)]
            exact ht
        · have h3 : e.key < key := lt_of_le_of_ne (not_lt.1 h2) h1
          obtain ⟨t, ht, hb⟩ := ih R2 level e.addr (times + 1) hM2.2 hs2.2
            (fun x hx => hh x (by simp [hx]))
            (fun l hl' => get_next_node_of hM2.1 (by omega)) (by simp at hf; omega)
          have hiff : (∃ x ∈ R1 ++ e :: R2, x.key = key) ↔ ∃ x ∈ R2, x.key = key := by
            constructor
            · rintro ⟨x, hx, rfl⟩
              rcases List.mem_append.1 hx with hx | hx
              · exact absurd (lt_trans (hs'.2.2 x hx e (by simp)) h3) (lt_irrefl _)
              · rcases List.mem_cons.1 hx with rfl | hx
                · exact absurd rfl h1
                · exact ⟨x, hx, rfl⟩
            · rintro ⟨x, hx, rfl⟩
              exact ⟨x, by simp [hx], rfl⟩
          refine ⟨t, ?_, by simp; omega⟩
          simp only [contain_loop, hk, Option.some_bind, h1, if_false, h2,
            get_next_node_of hM2.1 hle]
          rw [ht]
          simp only [hiff]

theorem pred_at_of_top_le {l : Nat} {key : K} {R : List (Entry K)} (h : top_height R ≤ l) :
    ∀ node, pred_at l key node R = node := by
  induction R with
  | nil => intro node; rfl
  | cons e R ih =>
    intro node
    simp only [top_height] at h
    simp only [pred_at]
    split
    · rw [if_neg (by omega)]; exact ih (by omega) node
    · rfl

theorem pred_at_stop {l : Nat} {key : K} {R1 : List (Entry K)} {e : Entry K} {R2 : List (Entry K)}
    (h1 : ∀ x ∈ R1, x.height ≤ l) (he : ¬ e.key < key) :
    ∀ node, pred_at l key node (R1 ++ e :: R2) = node := by
  induction R1 with
  | nil => intro node; simp [pred_at, he]
  | cons x R1 ih =>
    intro node
    have hx := h1 x (List.mem_cons_self _ _)
    simp only [List.cons_append, pred_at]
    split
    · rw [if_neg (by omega)]; exact ih (fun y hy => h1 y (List.mem_cons_of_mem _ hy)) node
    · rfl

theorem pred_at_append {l : Nat} {key : K} {R1 : List (Entry K)} (R2 : List (Entry K))
    (h1 : ∀ x ∈ R1, x.key < key) :
    ∀ node, pred_at l key node (R1 ++ R2) = pred_at l key (pred_at l key node R1) R2 := by
  induction R1 with
  | nil => intro node; rfl
  | cons x R1 ih =>
    intro node
    have hx := h1 x (List.mem_cons_self _ _)
    simp only [List.cons_append, pred_at, hx, if_true]
    exact ih (fun y hy => h1 y (List.mem_cons_of_mem _ hy)) _

theorem fllb_loop_linked (M : Mem K) (key : K) :
    ∀ (fuel : Nat) (R : List (Entry K)) (level node : Nat) (prev : PrevArr),
      Linked M R → R.Pairwise (fun a b => a.key < b.key) →
      (∀ l, l ≤ level → get_next M node l = some (first_at l R)) →
      level < prev.size →
      R.length + level + 1 ≤ fuel →
      ∃ out, fllb_loop M key fuel prev level node (first_at level R) = some out ∧
        out.size = prev.size ∧
        (∀ l, l ≤ level → out.slot l = some (pred_at l key node R)) ∧
        (∀ l, level < l → out.slot l = prev.slot l) := by
  intro fuel
  induction fuel with
  | zero => intro R level node prev _ _ _ _ hf; omega
  | succ fuel ih =>
    intro R level node prev hM hs hn hp hf
    -- what the loop does when it records `node` at `level`
    have record : pred_at level key node R = node →
        ∃ out, ((prev.write level node).bind fun prev =>
          if level = 0 then some prev
          else
            (get_next M node (size_dec level)).bind fun next_node =>
            fllb_loop M key fuel prev (size_dec level) node next_node) = some out ∧
        out.size = prev.size ∧
        (∀ l, l ≤ level → out.slot l = some (pred_at l key node R)) ∧
        (∀ l, level < l → out.slot l = prev.slot l) := by
      intro hpred
      simp only [PrevArr.write, hp, if_true, Option.some_bind]
      by_cases hl : level = 0
      · subst hl
        refine ⟨{ prev with slot := Function.update prev.slot 0 (some node) }, by simp, rfl, ?_, ?_⟩
        · intro l hl
          obtain rfl : l = 0 := by omega
          simp [hpred]
        · intro l hl
          simp [Function.update_noteq (show l ≠ 0 by omega)]
      · have hd : size_dec level = level - 1 := size_dec_pos (by omega)
        obtain ⟨out, ho, hsz, hlo, hhi⟩ := ih R (level - 1) node
          { prev with slot := Function.update prev.slot level (some node) } hM hs
          (fun l hl' => hn l (by omega)) (by simp; omega) (by omega)
        refine ⟨out, ?_, hsz, ?_, ?_⟩
        · simp only [hl, if_false, hd, hn (level - 1) (by omega), Option.some_bind]
          exact ho
        · intro l hl'
          by_cases hll : l = level
          · subst hll
            rw [hhi l (by omega), hpred]
            simp
          · exact hlo l (by omega)
        · intro l hl'
          rw [hhi l (by omega)]
          simp [Function.update_noteq (show l ≠ level by omega)]
    cases hfa : first_at level R with
    | none =>
      obtain ⟨out, ho, h⟩ := record (pred_at_of_top_le (first_at_eq_none.1 hfa) node)
      refine ⟨out, ?_, h⟩
      simp only [fllb_loop, Option.some_bind, if_true]
      exact ho
    | some nx =>
      obtain ⟨R1, e, R2, rfl, rfl, hle, hR1⟩ := first_at_split hfa
      have hM2 := hM.append_right
      have hk : get_key M e.addr = some e.key := get_key_node_of hM2.1
      have hs' := List.pairwise_append.1 hs
      have hs2 := List.pairwise_cons.1 hs'.2.1
      by_cases h1 : e.key ≥ key
      · obtain ⟨out, ho, h⟩ := record (pred_at_stop hR1 (not_lt.2 h1) node)
        refine ⟨out, ?_, h⟩
        simp only [fllb_loop, hk, Option.map_some', Option.some_bind, h1, decide_True, if_true]
        exact ho
      · have h3 : e.key < key := not_le.1 h1
        obtain ⟨out, ho, hsz, hlo, hhi⟩ := ih R2 level e.addr prev hM2.2 hs2.2
          (fun l hl' => get_next_node_of hM2.1 (by omega)) hp (by simp at hf; omega)
        refine ⟨out, ?_, hsz, ?_, hhi⟩
        · simp only [fllb_loop, hk, Option.map_some', Option.some_bind, h1, decide_False,
            Bool.false_eq_true, if_false, get_next_node_of hM2.1 hle]
          exact ho
        · intro l hl'
          rw [hlo l hl', pred_at_append _ (fun x hx => lt_trans (hs'.2.2 x hx e (by simp)) h3)]
          simp [pred_at, h3, show l < e.height by omega]

theorem Rep.top_le {s : SkipList K} {L : List (Entry K)} (h : Rep s L) :
    top_height L ≤ s._max_height :=
  top_height_le fun e he => (h.bounds e he).2.2.2

theorem Rep.height_le {s : SkipList K} {L : List (Entry K)} (h : Rep s L) :
    s._current_height ≤ s._max_height := h.height_eq ▸ h.top_le

theorem Rep.length_le {s : SkipList K} {L : List (Entry K)} (h : Rep s L) :
    L.length ≤ s.brk := by
  have := length_le_of_nodup_lt h.nodup (n := s.brk) (by
    intro x hx
    obtain ⟨e, he, rfl⟩ := List.mem_map.1 hx
    exact (h.bounds e he).1)
  simpa using this

theorem Rep.head_next {s : SkipList K} {L : List (Entry K)} (h : Rep s L) {l : Nat}
    (hl : l < s._max_height) : get_next s.mem s._head_node l = some (first_at l L) :=
  get_next_node_of h.head_node hl

theorem Rep.contain_times_eq {s : SkipList K} {L : List (Entry K)} (h : Rep s L) (key : K) :
    ∃ t, contain_times s key = some (decide (∃ e ∈ L, e.key = key), t) ∧
      t ≤ L.length + s._current_height := by
  unfold SkipList.contain_times
  by_cases h0 : s._current_height = 0
  · have hL : L = [] := top_height_eq_zero (fun e he => (h.bounds e he).2.2.1)
      (by rw [← h.height_eq, h0])
    subst hL
    exact ⟨0, by simp [h0], by omega⟩
  · have hle := h.height_le
    have hd : size_dec s._current_height = s._current_height - 1 := size_dec_pos (by omega)
    have hlen := h.length_le
    obtain ⟨t, ht, hb⟩ := contain_loop_linked s.mem key s.fuel L (s._current_height - 1)
      s._head_node 0 h.linked h.sorted (fun e he => (h.bounds e he).2.2.1)
      (fun l hl => h.head_next (by omega)) (by unfold fuel; omega)
    refine ⟨t, ?_, by omega⟩
    simp only [h0, if_false, hd, h.head_next (show s._current_height - 1 < s._max_height by omega),
      Option.some_bind]
    exact ht

theorem Rep.contain_eq {s : SkipList K} {L : List (Entry K)} (h : Rep s L) (key : K) :
    contain s key = some (decide (∃ e ∈ L, e.key = key)) := by
  obtain ⟨t, ht, _⟩ := h.contain_times_eq key
  simp [SkipList.contain, ht]

theorem Rep.fllb_eq {s : SkipList K} {L : List (Entry K)} (h : Rep s L)
    (key : K) (prev : PrevArr) (hp : prev.size = s._max_height) :
    ∃ out, find_largest_lower_bound s prev key = some out ∧ out.size = prev.size ∧
      (∀ l, l < s._current_height → out.slot l = some (pred_at l key s._head_node L)) ∧
      (∀ l, s._current_height ≤ l → out.slot l = prev.slot l) := by
  unfold SkipList.find_largest_lower_bound
  by_cases h0 : s._current_height = 0
  · exact ⟨prev, by simp [h0], rfl, fun l hl => by omega, fun l _ => rfl⟩
  · have hle := h.height_le
    have hd : size_dec s._current_height = s._current_height - 1 := size_dec_pos (by omega)
    have hlen := h.length_le
    obtain ⟨out, ho, hsz, hlo, hhi⟩ := fllb_loop_linked s.mem key s.fuel L
      (s._current_height - 1) s._head_node prev h.linked h.sorted
      (fun l hl => h.head_next (by omega)) (by omega) (by unfold fuel; omega)
    refine ⟨out, ?_, hsz, fun l hl => hlo l (by omega), fun l hl => hhi l (by omega)⟩
    simp only [h0, if_false, hd, h.head_next (show s._current_height - 1 < s._max_height by omega),
      Option.some_bind]
    exact ho

theorem Rep.chain_eq {s : SkipList K} {L : List (Entry K)} (h : Rep s L) {l : Nat}
    (hl : l < s._max_height) :
    chain s l = some ((L.filter fun e => l < e.height).map Entry.addr) := by
  simp only [SkipList.chain, h.head_next hl, Option.some_bind]
  exact walk_linked h.linked _ h.length_le

theorem Rep.level_entries_eq {s : SkipList K} {L : List (Entry K)} (h : Rep s L) {l : Nat}
    (hl : l < s._max_height) :
    level_entries s l = some ((L.filter fun e => l < e.height).map fun e => (e.key, e.height)) := by
  simp only [SkipList.level_entries, h.chain_eq hl, Option.some_bind]
  exact mapM_entries fun e he => h.linked.mem_node e (List.mem_of_mem_filter he)

end Reading

/-! ## The loops that write -/

section Writing

variable {K : Type}

theorem foldlM_range_inv {σ : Type} (f : σ → Nat → Option σ) (P : Nat → σ → Prop) (n : Nat)
    (s0 : σ) (h0 : P 0 s0)
    (hstep : ∀ i, i < n → ∀ s, P i s → ∃ t, f s i = some t ∧ P (i + 1) t) :
    ∃ t, (List.range n).foldlM f s0 = some t ∧ P n t := by
  induction n with
  | zero => exact ⟨s0, rfl, h0⟩
  | succ n ih =>
    obtain ⟨t, ht, hP⟩ := ih fun i hi s hs => hstep i (by omega) s hs
    obtain ⟨u, hu, hQ⟩ := hstep n (by omega) t hP
    refine ⟨u, ?_, hQ⟩
    rw [List.range_succ, List.foldlM_append, ht]
    simp [hu]

theorem shrink_loop_eq (M : Mem K) (head : Nat) (R : List (Entry K)) (mh : Nat)
    (hhead : ∀ l, l < mh → get_next M head l = some (first_at l R)) :
    ∀ (fuel ch : Nat), 1 ≤ ch → ch ≤ mh → top_height R ≤ ch → ch ≤ fuel →
      shrink_loop M head fuel ch (first_at (ch - 1) R) = some (top_height R) := by
  intro fuel
  induction fuel with
  | zero => intro ch h1 _ _ hf; omega
  | succ fuel ih =>
    intro ch h1 hm ht hf
    cases hfa : first_at (ch - 1) R with
    | some a =>
      have : ¬ top_height R ≤ ch - 1 := by
        rw [← first_at_eq_none, hfa]; simp
      simp only [shrink_loop]
      congr 1
      omega
    | none =>
      have htop := first_at_eq_none.1 hfa
      have hd : size_dec ch = ch - 1 := size_dec_pos (by omega)
      simp only [shrink_loop, hd]
      by_cases h0 : ch - 1 = 0
      · simp only [h0, if_true]
        congr 1
        omega
      · have hd2 : size_dec (ch - 1) = ch - 1 - 1 := size_dec_pos (by omega)
        simp only [h0, if_false, hd2, hhead (ch - 1 - 1) (by omega), Option.some_bind]
        exact ih (ch - 1) (by omega) (by omega) htop (by omega)

theorem new_node_init_eq (max_level : Nat) (key : Option K) :
    new_node_init max_level { _key := key, _height := max_level, _next := fun _ => none }
      = some (node_of key max_level []) := by
  obtain ⟨t, ht, hP⟩ := foldlM_range_inv (fun (n : Node K) i => n.set_next i none)
    (fun i n => n = Node.mk key max_level fun l => if l < i then some none else none)
    max_level
    { _key := key, _height := max_level, _next := fun _ => none } (by simp) (by
      intro i hi s hs
      subst hs
      refine ⟨Node.mk key max_level fun l => if l < i + 1 then some none else none, ?_, rfl⟩
      simp only [Node.set_next, hi, if_true, Option.some.injEq, Node.mk.injEq, true_and]
      funext l
      by_cases hl : l = i
      · subst hl; simp
      · rw [Function.update_noteq hl]
        by_cases h1 : l < i
        · rw [if_pos h1, if_pos (by omega)]
        · rw [if_neg h1, if_neg (by omega)])
  rw [new_node_init, ht, hP]
  simp [node_of, first_at]

theorem new_node_eq (mem : Mem K) (brk max_level : Nat) (key : Option K) :
    new_node mem brk max_level key
      = some (brk, Function.update mem brk (some (node_of key max_level [])), brk + 1) := by
  simp [new_node, new_node_init_eq]

theorem fill_head_eq (head lo hi : Nat) (prev : PrevArr) (h : hi ≤ prev.size) :
    ∃ out, fill_head head lo hi prev = some out ∧ out.size = prev.size ∧
      ∀ l, out.slot l = if lo ≤ l ∧ l < hi then some head else prev.slot l := by
  obtain ⟨t, ht, hP⟩ := foldlM_range_inv (fun (prev : PrevArr) d => prev.write (lo + d) head)
    (fun i out => out.size = prev.size ∧
      ∀ l, out.slot l = if lo ≤ l ∧ l < lo + i then some head else prev.slot l) (hi - lo)
    prev ⟨rfl, fun l => by rw [if_neg (by omega)]⟩ (by
      intro i hi' s ⟨hsz, hs⟩
      refine ⟨{ s with slot := Function.update s.slot (lo + i) (some head) }, ?_, hsz, ?_⟩
      · simp [PrevArr.write, show lo + i < s.size by omega]
      · intro l
        by_cases hl : l = lo + i
        · subst hl; simp
        · simp only [Function.update_noteq hl, hs l]
          by_cases h1 : lo ≤ l ∧ l < lo + i
          · rw [if_pos h1, if_pos (by omega)]
          · rw [if_neg h1, if_neg (by omega)])
  refine ⟨t, ht, hP.1, fun l => ?_⟩
  rw [hP.2 l]
  by_cases h1 : lo ≤ l ∧ l < hi
  · rw [if_pos h1, if_pos (by omega)]
  · rw [if_neg h1, if_neg (by omega)]

theorem relink_succ_of_ne {i : Nat} {p : Nat → Nat} {v : Nat → Ptr} {x : Nat} (n : Node K)
    (hx : x ≠ p i) : relink (i + 1) p v x n = relink i p v x n := by
  simp only [relink, Node.mk.injEq, true_and]
  funext l
  by_cases hl : l = i
  · subst hl
    rw [if_neg (by simp [hx]), if_neg (by simp)]
  · by_cases h1 : l < i ∧ x = p l
    · rw [if_pos h1, if_pos ⟨by omega, h1.2⟩]
    · rw [if_neg h1, if_neg (fun h => h1 ⟨by omega, h.2⟩)]

theorem relink_zero {p : Nat → Nat} {v : Nat → Ptr} {x : Nat} (n : Node K) :
    relink 0 p v x n = n := by
  simp [relink]

theorem relink_succ_self {i : Nat} {p : Nat → Nat} {v : Nat → Ptr} (n : Node K) :
    relink (i + 1) p v (p i) n
      = { relink i p v (p i) n with
          _next := Function.update (relink i p v (p i) n)._next i (some (v i)) } := by
  simp only [relink, Node.mk.injEq, true_and]
  funext l
  by_cases hl : l = i
  · subst hl
    simp
  · rw [Function.update_noteq hl]
    by_cases h1 : l < i ∧ p i = p l
    · rw [if_pos h1, if_pos ⟨by omega, h1.2⟩]
    · rw [if_neg h1, if_neg (fun h => h1 ⟨by omega, h.2⟩)]

theorem splice_in_eq (prev : PrevArr) (curr h : Nat) (key : Option K) (M0 : Mem K)
    (p : Nat → Nat) (N : Nat → Ptr)
    (hprev : ∀ i, i < h → prev.read i = some (p i))
    (hcurr : M0 curr = some (node_of key h []))
    (hp : ∀ i, i < h →
      p i ≠ curr ∧ ∃ n, M0 (p i) = some n ∧ i < n._height ∧ n._next i = some (N i)) :
    ∃ M, splice_in prev curr h M0 = some M ∧
      M curr = some (Node.mk key h fun l => if l < h then some (N l) else none) ∧
      ∀ x, x ≠ curr → M x = (M0 x).map (relink h p (fun _ => some curr) x) := by
  obtain ⟨M, hM, hc, hx⟩ := foldlM_range_inv (fun (mem : Mem K) i =>
      (prev.read i).bind fun p =>
      (get_next mem p i).bind fun nx =>
      (set_next mem curr i nx).bind fun mem =>
      set_next mem p i (some curr))
    (fun i M =>
      M curr = some (Node.mk key h fun l =>
        if l < i then some (N l) else if l < h then some none else none) ∧
      ∀ x, x ≠ curr → M x = (M0 x).map (relink i p (fun _ => some curr) x)) h M0
    ⟨by simp [hcurr, node_of, first_at], fun x _ => by
      cases M0 x <;> simp [relink_zero]⟩ (by
      intro i hi M ⟨hc, hx⟩
      obtain ⟨hne, n, hn, hin, hN⟩ := hp i hi
      have hMp : M (p i) = some (relink i p (fun _ => some curr) (p i) n) := by
        rw [hx _ hne, hn]; rfl
      have h1 : get_next M (p i) i = some (N i) := by
        simp [get_next, hMp, Node.get_next, relink, hin, hN]
      have h2 : set_next M curr i (N i) = some (Function.update M curr (some
          (Node.mk key h fun l =>
            if l < i + 1 then some (N l) else if l < h then some none else none))) := by
        simp only [set_next, hc, Option.some_bind, Node.set_next, hi, if_true, Option.map_some']
        have hf : Function.update
            (fun l => if l < i then some (N l) else if l < h then some none else none) i
            (some (N i))
            = fun l => if l < i + 1 then some (N l) else if l < h then some none else none := by
          funext l
          by_cases hl : l = i
          · subst hl; simp
          · rw [Function.update_noteq hl]
            by_cases h1 : l < i
            · rw [if_pos h1, if_pos (show l < i + 1 by omega)]
            · rw [if_neg h1, if_neg (show ¬ l < i + 1 by omega)]
        rw [hf]
      have h3 : set_next (Function.update M curr (some
          (Node.mk key h fun l =>
            if l < i + 1 then some (N l) else if l < h then some none else none)))
          (p i) i (some curr) = some (Function.update (Function.update M curr (some
          (Node.mk key h fun l =>
            if l < i + 1 then some (N l) else if l < h then some none else none)))
          (p i) (some { relink i p (fun _ => some curr) (p i) n with
            _next := Function.update (relink i p (fun _ => some curr) (p i) n)._next i
              (some (some curr)) })) := by
        simp only [set_next, Function.update_noteq hne, hMp, Option.some_bind, Node.set_next,
          show i < (relink i p (fun _ => some curr) (p i) n)._height from hin, if_true,
          Option.map_some']
      refine ⟨_, (by simp only [hprev i hi, Option.some_bind, h1, h2]; exact h3), ?_, ?_⟩
      · rw [Function.update_noteq (Ne.symm hne), Function.update_same]
      · intro x hxc
        by_cases hxp : x = p i
        · subst hxp
          rw [Function.update_same, hn, Option.map_some', relink_succ_self]
        · rw [Function.update_noteq hxp, Function.update_noteq hxc, hx x hxc]
          cases M0 x with
          | none => rfl
          | some m => simp [relink_succ_of_ne m hxp])
  refine ⟨M, hM, ?_, hx⟩
  rw [hc]
  congr 2
  funext l
  by_cases hl : l < h
  · simp [hl]
  · simp [hl]

theorem splice_out_eq (prev : PrevArr) (node h : Nat) (M0 : Mem K)
    (p : Nat → Nat) (N : Nat → Ptr)
    (hprev : ∀ i, i < h → prev.read i = some (p i))
    (hnode : ∃ n, M0 node = some n ∧ h ≤ n._height ∧ ∀ i, i < h → n._next i = some (N i))
    (hp : ∀ i, i < h → p i ≠ node ∧ ∃ n, M0 (p i) = some n ∧ i < n._height) :
    ∃ M, splice_out prev node h M0 = some M ∧
      ∀ x, x ≠ node → M x = (M0 x).map (relink h p N x) := by
  obtain ⟨n0, hn0, hh, hN⟩ := hnode
  obtain ⟨M, hM, hc, hx⟩ := foldlM_range_inv (fun (mem : Mem K) i =>
      (prev.read i).bind fun p =>
      (get_next mem node i).bind fun nx =>
      set_next mem p i nx)
    (fun i M => M node = some n0 ∧ ∀ x, x ≠ node → M x = (M0 x).map (relink i p N x)) h M0
    ⟨hn0, fun x _ => by cases M0 x <;> simp [relink_zero]⟩ (by
      intro i hi M ⟨hc, hx⟩
      obtain ⟨hne, n, hn, hin⟩ := hp i hi
      have hMp : M (p i) = some (relink i p N (p i) n) := by
        rw [hx _ hne, hn]; rfl
      have h1 : get_next M node i = some (N i) := by
        simp [get_next, hc, Node.get_next, show i < n0._height by omega, hN i hi]
      have h3 : set_next M (p i) i (N i) = some (Function.update M (p i)
          (some { relink i p N (p i) n with
            _next := Function.update (relink i p N (p i) n)._next i (some (N i)) })) := by
        simp only [set_next, hMp, Option.some_bind, Node.set_next,
          show i < (relink i p N (p i) n)._height from hin, if_true, Option.map_some']
      refine ⟨_, (by simp only [hprev i hi, Option.some_bind, h1]; exact h3), ?_, ?_⟩
      · rw [Function.update_noteq (Ne.symm hne), hc]
      · intro x hxc
        by_cases hxp : x = p i
        · subst hxp
          rw [Function.update_same, hn, Option.map_some', relink_succ_self]
        · rw [Function.update_noteq hxp, hx x hxc]
          cases M0 x with
          | none => rfl
          | some m => simp [relink_succ_of_ne m hxp])
  exact ⟨M, hM, hx⟩

theorem Linked.congr {M M' : Mem K} {R : List (Entry K)} (h : Linked M R)
    (hx : ∀ x ∈ R.map Entry.addr, M' x = M x) : Linked M' R := by
  induction R with
  | nil => trivial
  | cons e R ih =>
    refine ⟨?_, ih h.2 fun x hx' => hx x (by simp at hx' ⊢; exact Or.inr hx')⟩
    rw [hx e.addr (by simp)]
    exact h.1

theorem relink_eq_self {h : Nat} {p : Nat → Nat} {v : Nat → Ptr} {x : Nat} (n : Node K)
    (hx : ∀ l, l < h → x ≠ p l) : relink h p v x n = n := by
  simp only [relink]
  congr
  funext l
  rw [if_neg fun hl => hx l hl.1 hl.2]

variable [LinearOrder K]

theorem pred_at_mem (l : Nat) (key : K) :
    ∀ (R : List (Entry K)) (a : Nat), pred_at l key a R = a ∨ pred_at l key a R ∈ R.map Entry.addr := by
  intro R
  induction R with
  | nil => intro a; exact Or.inl rfl
  | cons e R ih =>
    intro a
    simp only [pred_at]
    split
    · split
      · rcases ih e.addr with h | h
        · rw [h]; simp
        · right; simp at h ⊢; exact Or.inr h
      · rcases ih a with h | h
        · exact Or.inl h
        · right; simp at h ⊢; exact Or.inr h
    · exact Or.inl rfl

theorem pred_at_ne (l : Nat) (key : K) {R : List (Entry K)} {a b : Nat} (hab : b ≠ a)
    (hb : b ∉ R.map Entry.addr) : pred_at l key a R ≠ b := by
  rcases pred_at_mem l key R a with h | h
  · rw [h]; exact Ne.symm hab
  · intro h'; exact hb (h' ▸ h)

theorem first_at_ins {l : Nat} (new : Entry K) :
    ∀ (R : List (Entry K)) (a : Nat), a ∉ R.map Entry.addr →
      first_at l (ins new R) =
        if l < new.height ∧ pred_at l new.key a R = a then some new.addr else first_at l R := by
  intro R
  induction R with
  | nil => intro a _; simp [ins, first_at, pred_at]
  | cons e R ih =>
    intro a ha
    have hae : a ≠ e.addr := fun h => ha (by simp [h])
    have haR : a ∉ R.map Entry.addr := fun h => ha (by simp at h ⊢; exact Or.inr h)
    simp only [ins, pred_at]
    by_cases hk : e.key < new.key
    · simp only [hk, if_true, first_at]
      by_cases hl : l < e.height
      · simp only [hl, if_true]
        rw [if_neg]
        rintro ⟨_, h⟩
        have hnd := pred_at_ne l new.key (R := R) (a := e.addr) (b := a) hae haR
        exact hnd h
      · simp only [hl, if_false]
        exact ih a haR
    · simp only [hk, if_false, first_at, and_true]

theorem relink_node_of (new : Entry K) {p : Nat → Nat} {a : Nat} {key : Option K} {ht : Nat}
    {R : List (Entry K)} (ha : a ∉ R.map Entry.addr)
    (h1 : ∀ l, l < new.height → l < ht → p l = pred_at l new.key a R)
    (h2 : ∀ l, l < new.height → ¬ l < ht → a ≠ p l) :
    relink new.height p (fun _ => some new.addr) a (node_of key ht R)
      = node_of key ht (ins new R) := by
  simp only [relink, node_of, Node.mk.injEq, true_and]
  funext l
  by_cases hl : l < ht
  · simp only [hl, if_true]
    rw [first_at_ins new R a ha]
    by_cases hh : l < new.height
    · simp only [hh, true_and, h1 l hh hl]
      by_cases hp : pred_at l new.key a R = a
      · rw [if_pos hp, if_pos hp.symm]
      · rw [if_neg hp, if_neg (Ne.symm hp)]
    · simp [hh]
  · simp only [hl, if_false]
    rw [if_neg]
    rintro ⟨hh, hp⟩
    exact h2 l hh hl hp

theorem ins_linked (M : Mem K) {M' : Mem K} (new : Entry K) {p : Nat → Nat}
    (hrel : ∀ x, x ≠ new.addr →
      M' x = (M x).map (relink new.height p (fun _ => some new.addr) x)) :
    ∀ (R : List (Entry K)) (q : Nat → Nat),
      Linked M R → (R.map Entry.addr).Nodup → new.addr ∉ R.map Entry.addr →
      (∀ l, q l ∉ R.map Entry.addr) →
      (∀ l, l < new.height → p l = pred_at l new.key (q l) R) →
      M' new.addr = some (node_of (some new.key) new.height
        (R.dropWhile fun e => decide (e.key < new.key))) →
      Linked M' (ins new R) := by
  intro R
  induction R with
  | nil =>
    intro q _ _ _ _ _ hnew
    exact ⟨hnew, trivial⟩
  | cons e R ih =>
    intro q hM hnd hfresh hq hp hnew
    have hnd' : e.addr ∉ R.map Entry.addr ∧ (R.map Entry.addr).Nodup := List.nodup_cons.1 hnd
    have hne : e.addr ≠ new.addr := fun h => hfresh (by simp [h])
    have hfresh' : new.addr ∉ R.map Entry.addr := fun h => hfresh (by simp at h ⊢; exact Or.inr h)
    have hqe : ∀ l, q l ≠ e.addr := fun l h => hq l (by simp [h])
    have hqR : ∀ l, q l ∉ R.map Entry.addr := fun l h => hq l (by simp at h ⊢; exact Or.inr h)
    by_cases hk : e.key < new.key
    · simp only [ins, hk, if_true]
      refine ⟨?_, ih (fun l => if l < e.height then e.addr else q l) hM.2 hnd'.2 hfresh' ?_ ?_ ?_⟩
      · rw [hrel _ hne, hM.1, Option.map_some']
        congr 1
        apply relink_node_of new hnd'.1
        · intro l hl hle
          rw [hp l hl]
          simp [pred_at, hk, hle]
        · intro l hl hle
          rw [hp l hl]
          simp only [pred_at, hk, hle, if_true, if_false]
          exact Ne.symm (pred_at_ne _ _ (hqe l).symm hnd'.1)
      · intro l
        show (if l < e.height then e.addr else q l) ∉ R.map Entry.addr
        split
        · exact hnd'.1
        · exact hqR l
      · intro l hl
        rw [hp l hl]
        simp [pred_at, hk]
      · simpa [List.dropWhile, hk] using hnew
    · simp only [ins, hk, if_false]
      refine ⟨by simpa [List.dropWhile, hk] using hnew, hM.congr ?_⟩
      intro x hx
      have hxn : x ≠ new.addr := fun h => hfresh (h ▸ hx)
      rw [hrel x hxn]
      cases hMx : M x with
      | none => rfl
      | some n =>
        rw [Option.map_some', relink_eq_self]
        intro l hl
        rw [hp l hl]
        simp only [pred_at, hk, if_false]
        exact fun h => hq l (h ▸ hx)

theorem pred_at_node {M : Mem K} {l : Nat} {key : K} :
    ∀ (R : List (Entry K)) (q : Nat), Linked M R →
      (∃ n, M q = some n ∧ l < n._height ∧ n._next l = some (first_at l R)) →
      ∃ n, M (pred_at l key q R) = some n ∧ l < n._height ∧
        n._next l = some (first_at l (R.dropWhile fun e => decide (e.key < key))) := by
  intro R
  induction R with
  | nil => intro q _ h; simpa [pred_at] using h
  | cons e R ih =>
    intro q hM hq
    by_cases hk : e.key < key
    · simp only [pred_at, hk, if_true, List.dropWhile, decide_True]
      by_cases hl : l < e.height
      · simp only [hl, if_true]
        exact ih e.addr hM.2 ⟨_, hM.1, hl, by simp [node_of, hl]⟩
      · simp only [hl, if_false]
        obtain ⟨n, hn, hln, hnx⟩ := hq
        exact ih q hM.2 ⟨n, hn, hln, by simpa [first_at, hl] using hnx⟩
    · simpa [pred_at, hk, List.dropWhile] using hq

theorem mem_ins {new x : Entry K} {R : List (Entry K)} : x ∈ ins new R ↔ x = new ∨ x ∈ R := by
  induction R with
  | nil => simp [ins]
  | cons e R ih =>
    simp only [ins]
    split
    · simp only [List.mem_cons, ih]; tauto
    · simp only [List.mem_cons]

theorem sorted_ins {new : Entry K} {R : List (Entry K)}
    (hs : R.Pairwise fun a b => a.key < b.key) (hk : ∀ e ∈ R, e.key ≠ new.key) :
    (ins new R).Pairwise fun a b => a.key < b.key := by
  induction R with
  | nil => simp [ins]
  | cons e R ih =>
    have hs' := List.pairwise_cons.1 hs
    simp only [ins]
    split
    · rename_i hlt
      refine List.pairwise_cons.2 ⟨?_, ih hs'.2 fun x hx => hk x (List.mem_cons_of_mem _ hx)⟩
      intro x hx
      rcases mem_ins.1 hx with rfl | hx
      · exact hlt
      · exact hs'.1 x hx
    · rename_i hlt
      have hlt' : new.key < e.key :=
        lt_of_le_of_ne (not_lt.1 hlt) (Ne.symm (hk e (List.mem_cons_self _ _)))
      refine List.pairwise_cons.2 ⟨?_, hs⟩
      intro x hx
      rcases List.mem_cons.1 hx with rfl | hx
      · exact hlt'
      · exact lt_trans hlt' (hs'.1 x hx)

theorem top_height_ins {new : Entry K} {R : List (Entry K)} :
    top_height (ins new R) = max new.height (top_height R) := by
  induction R with
  | nil => simp [ins, top_height]
  | cons e R ih =>
    simp only [ins]
    split
    · simp only [top_height, ih]; omega
    · simp only [top_height]

theorem nodup_ins {new : Entry K} {R : List (Entry K)} (hn : (R.map Entry.addr).Nodup)
    (hf : new.addr ∉ R.map Entry.addr) : ((ins new R).map Entry.addr).Nodup := by
  induction R with
  | nil => simp [ins]
  | cons e R ih =>
    have hn' : e.addr ∉ R.map Entry.addr ∧ (R.map Entry.addr).Nodup := List.nodup_cons.1 hn
    have hf' : new.addr ∉ R.map Entry.addr := fun h => hf (by simp at h ⊢; exact Or.inr h)
    simp only [ins]
    split
    · simp only [List.map_cons]
      refine List.nodup_cons.2 ⟨?_, ih hn'.2 hf'⟩
      intro h
      obtain ⟨x, hx, hxa⟩ := List.mem_map.1 h
      rcases mem_ins.1 hx with rfl | hx
      · exact hf (by simp [hxa])
      · exact hn'.1 (List.mem_map.2 ⟨x, hx, hxa⟩)
    · simp only [List.map_cons]
      exact List.nodup_cons.2 ⟨by simpa using hf, by simpa using hn⟩

theorem draw_height_ge : ∀ (mt : List Nat) (h0 h : Nat) (mt' : List Nat),
    draw_height mt h0 = some (h, mt') → h0 ≤ h := by
  intro mt
  induction mt with
  | nil => intro h0 h mt' h1; simp [draw_height] at h1
  | cons d mt ih =>
    intro h0 h mt' h1
    simp only [draw_height] at h1
    split at h1
    · have := ih _ _ _ h1; omega
    · simp at h1; omega

theorem get_random_height_bounds {mh : Nat} {mt : List Nat} {h : Nat} {mt' : List Nat}
    (hm : 1 ≤ mh) (hd : get_random_height mh mt = some (h, mt')) : 1 ≤ h ∧ h ≤ mh := by
  simp only [get_random_height, Option.map_eq_some'] at hd
  obtain ⟨⟨h1, m1⟩, hd1, hd2⟩ := hd
  have := draw_height_ge _ _ _ _ hd1
  simp only [Prod.mk.injEq] at hd2
  obtain ⟨rfl, _⟩ := hd2
  split <;> omega

theorem Rep.with_mt {s : SkipList K} {L : List (Entry K)} (h : Rep s L) (mt : List Nat) :
    Rep { s with _mt := mt } L :=
  { sorted := h.sorted, nodup := h.nodup, bounds := h.bounds, max_pos := h.max_pos,
    head_lt := h.head_lt, height_eq := h.height_eq, head_node := h.head_node,
    linked := h.linked, free := h.free }

theorem Rep.addr_lt {s : SkipList K} {L : List (Entry K)} (h : Rep s L) {x : Nat}
    (hx : x ∈ L.map Entry.addr) : x < s.brk ∧ x ≠ s._head_node := by
  obtain ⟨e, he, rfl⟩ := List.mem_map.1 hx
  exact ⟨(h.bounds e he).1, (h.bounds e he).2.1⟩

theorem Rep.head_not_mem {s : SkipList K} {L : List (Entry K)} (h : Rep s L) :
    s._head_node ∉ L.map Entry.addr := fun hx => (h.addr_lt hx).2 rfl

theorem Rep.brk_not_mem {s : SkipList K} {L : List (Entry K)} (h : Rep s L) :
    s.brk ∉ L.map Entry.addr := fun hx => lt_irrefl _ (h.addr_lt hx).1

theorem Rep.pred_lt {s : SkipList K} {L : List (Entry K)} (h : Rep s L) (l : Nat) (key : K) :
    pred_at l key s._head_node L < s.brk := by
  rcases pred_at_mem l key L s._head_node with h1 | h1
  · rw [h1]; exact h.head_lt
  · exact (h.addr_lt h1).1

theorem Rep.insert_present {s : SkipList K} {L : List (Entry K)} (h : Rep s L) {key : K}
    (hk : ∃ e ∈ L, e.key = key) : insert s key = some (false, s) := by
  simp [SkipList.insert, h.contain_eq key, hk]

theorem Rep.init {max_height : Nat} {seed : List Nat} {s : SkipList K}
    (hm : 1 ≤ max_height) (hs : new max_height seed = some s) : Rep s [] := by
  simp only [new, new_node_eq, Option.map_some', Option.some.injEq] at hs
  subst hs
  exact
    { sorted := List.Pairwise.nil, nodup := List.nodup_nil, bounds := fun e he => by simp at he,
      max_pos := hm, head_lt := Nat.zero_lt_one, height_eq := rfl,
      head_node := by simp, linked := trivial,
      free := fun x hx _ => by simp [Function.update_noteq hx] }

theorem Rep.insert_absent {s : SkipList K} {L : List (Entry K)} (h : Rep s L) {key : K}
    (hk : ∀ e ∈ L, e.key ≠ key) {ht : Nat} {mt : List Nat}
    (hd : get_random_height s._max_height s._mt = some (ht, mt)) :
    ∃ t, insert s key = some (true, t) ∧
      Rep t (ins { addr := s.brk, key := key, height := ht } L) ∧
      t._mt = mt ∧ t._max_height = s._max_height ∧ t._head_node = s._head_node ∧
      t.brk = s.brk + 1 := by
  obtain ⟨hh1, hh2⟩ := get_random_height_bounds h.max_pos hd
  have h1 := h.with_mt mt
  have hc : contain s key = some false := by
    rw [h.contain_eq key]
    simp only [Option.some.injEq, decide_eq_false_iff_not]
    rintro ⟨e, he, hek⟩
    exact hk e he hek
  obtain ⟨out, ho, hsz, hlo, hhi⟩ := h1.fllb_eq key
    (PrevArr.fresh s._max_height) rfl
  -- the slots of `prev` once the loop over the new levels has run
  have hps : ∃ prev2, (if ht > s._current_height then
        (fill_head s._head_node s._current_height ht out).map fun prev =>
          (prev, ({ s with _mt := mt, _current_height := ht } : SkipList K))
      else some (out, ({ s with _mt := mt } : SkipList K)))
      = some (prev2, { s with _mt := mt, _current_height := max ht s._current_height }) ∧
      ∀ l, l < ht → prev2.read l = some (pred_at l key s._head_node L) := by
    by_cases hgt : ht > s._current_height
    · obtain ⟨o2, ho2, hsz2, hsl2⟩ := fill_head_eq s._head_node s._current_height ht out
        (by rw [hsz]; exact hh2)
      refine ⟨o2, ?_, ?_⟩
      · simp only [hgt, if_true, ho2, Option.map_some']
        rw [max_eq_left (le_of_lt hgt)]
      · intro l hl
        have hl2 : l < o2.size := by rw [hsz2, hsz]; exact lt_of_lt_of_le hl hh2
        simp only [PrevArr.read, hl2, if_true, hsl2 l]
        by_cases hlc : s._current_height ≤ l
        · rw [if_pos ⟨hlc, hl⟩, pred_at_of_top_le (by rw [← h.height_eq]; exact hlc)]
        · rw [if_neg (fun hcon => hlc hcon.1)]
          exact hlo l (by simpa using hlc)
    · refine ⟨out, ?_, ?_⟩
      · simp only [hgt, if_false]
        rw [max_eq_right (not_lt.1 hgt)]
      · intro l hl
        have hl2 : l < out.size := by rw [hsz]; exact lt_of_lt_of_le hl hh2
        simp only [PrevArr.read, hl2, if_true]
        exact hlo l (lt_of_lt_of_le hl (not_lt.1 hgt))
  obtain ⟨prev2, hp2, hread⟩ := hps
  let new : Entry K := { addr := s.brk, key := key, height := ht }
  let M0 : Mem K := Function.update s.mem s.brk (some (node_of (some key) ht []))
  have hM0 : ∀ x, x ≠ s.brk → M0 x = s.mem x := fun x hx => Function.update_noteq hx _ _
  obtain ⟨M, hM, hcurr, hrel⟩ := splice_in_eq prev2 s.brk ht (some key) M0
    (fun l => pred_at l key s._head_node L)
    (fun l => first_at l (L.dropWhile fun e => decide (e.key < key))) hread
    (Function.update_same _ _ _) (by
      intro i hi
      have hne : pred_at i key s._head_node L ≠ s.brk := ne_of_lt (h.pred_lt i key)
      refine ⟨hne, ?_⟩
      rw [hM0 _ hne]
      exact pred_at_node L s._head_node h.linked
        ⟨_, h.head_node, lt_of_lt_of_le hi hh2, by simp [node_of, lt_of_lt_of_le hi hh2]⟩)
  refine ⟨{ mem := M, brk := s.brk + 1, _head_node := s._head_node,
            _current_height := max ht s._current_height, _max_height := s._max_height,
            _mt := mt }, ?_, ?_, rfl, rfl, rfl, rfl⟩
  · simp only [SkipList.insert, hc, Option.some_bind, Bool.false_eq_true, if_false, hd, ho, hp2,
      new_node_eq, Option.map_eq_some']
    exact ⟨M, hM, rfl⟩
  · have hneh : s._head_node ≠ s.brk := ne_of_lt h.head_lt
    exact
      { sorted := sorted_ins h.sorted hk
        nodup := nodup_ins h.nodup h.brk_not_mem
        bounds := by
          intro e he
          rcases mem_ins.1 he with rfl | he
          · exact ⟨Nat.lt_succ_self _, Ne.symm hneh, hh1, hh2⟩
          · have := h.bounds e he
            exact ⟨Nat.lt_succ_of_lt this.1, this.2⟩
        max_pos := h.max_pos
        head_lt := Nat.lt_succ_of_lt h.head_lt
        height_eq := by
          show max ht s._current_height = _
          rw [top_height_ins, h.height_eq]
        head_node := by
          show M s._head_node = _
          rw [hrel _ hneh, hM0 _ hneh, h.head_node, Option.map_some']
          congr 1
          exact relink_node_of new h.head_not_mem (fun l _ _ => rfl)
            (fun l hl hl2 => absurd (lt_of_lt_of_le hl hh2) hl2)
        linked := by
          show Linked M _
          exact ins_linked M0 new hrel L (fun _ => s._head_node)
            (h.linked.congr fun x hx => hM0 x (ne_of_lt (h.addr_lt hx).1)) h.nodup h.brk_not_mem
            (fun _ => h.head_not_mem) (fun l _ => rfl) hcurr
        free := by
          intro x hxh hx
          show M x = none
          have hxb : x ≠ s.brk := by
            rintro rfl
            exact hx (List.mem_map.2 ⟨new, mem_ins.2 (Or.inl rfl), rfl⟩)
          have hxL : x ∉ L.map Entry.addr := by
            intro hxL
            obtain ⟨e, he, rfl⟩ := List.mem_map.1 hxL
            exact hx (List.mem_map.2 ⟨e, mem_ins.2 (Or.inr he), rfl⟩)
          rw [hrel x hxb, hM0 x hxb, h.free x hxh hxL]
          rfl }

theorem dropWhile_mem {key : K} {t : Entry K} {B : List (Entry K)} :
    ∀ {R : List (Entry K)}, R.dropWhile (fun e => decide (e.key < key)) = t :: B → t ∈ R := by
  intro R h
  have h1 : t ∈ R.dropWhile (fun e => decide (e.key < key)) := by rw [h]; simp
  exact (List.dropWhile_sublist _).subset h1

theorem dropWhile_tail_subset {key : K} {t : Entry K} {B : List (Entry K)}
    {R : List (Entry K)} (h : R.dropWhile (fun e => decide (e.key < key)) = t :: B) :
    ∀ x ∈ B, x ∈ R := by
  intro x hx
  have h1 : x ∈ R.dropWhile (fun e => decide (e.key < key)) := by rw [h]; simp [hx]
  exact (List.dropWhile_sublist _).subset h1

theorem dropWhile_of_mem {key : K} :
    ∀ {R : List (Entry K)}, R.Pairwise (fun a b => a.key < b.key) → (∃ e ∈ R, e.key = key) →
      ∃ t B, R.dropWhile (fun e => decide (e.key < key)) = t :: B ∧ t.key = key := by
  intro R
  induction R with
  | nil => intro _ h; simp at h
  | cons e R ih =>
    intro hs hk
    have hs' := List.pairwise_cons.1 hs
    by_cases hlt : e.key < key
    · obtain ⟨x, hx, hxk⟩ := hk
      rcases List.mem_cons.1 hx with rfl | hx
      · exact absurd hxk (ne_of_lt hlt)
      · obtain ⟨t, B, hd, ht⟩ := ih hs'.2 ⟨x, hx, hxk⟩
        exact ⟨t, B, by simpa [List.dropWhile, hlt] using hd, ht⟩
    · refine ⟨e, R, by simp [List.dropWhile, hlt], ?_⟩
      obtain ⟨x, hx, hxk⟩ := hk
      rcases List.mem_cons.1 hx with rfl | hx
      · exact hxk
      · exact absurd (hxk ▸ hs'.1 x hx) hlt

theorem Linked.dropWhile_node {M : Mem K} {key : K} {t : Entry K} {B : List (Entry K)}
    {R : List (Entry K)} (hM : Linked M R)
    (h : R.dropWhile (fun e => decide (e.key < key)) = t :: B) :
    M t.addr = some (node_of (some t.key) t.height B) ∧ Linked M B := by
  have h1 := List.takeWhile_append_dropWhile (fun e => decide (e.key < key)) R
  rw [h] at h1
  rw [← h1] at hM
  exact hM.append_right

theorem first_at_del {l : Nat} {key : K} {t : Entry K} {B : List (Entry K)} :
    ∀ (R : List (Entry K)) (a : Nat), a ∉ R.map Entry.addr →
      R.dropWhile (fun e => decide (e.key < key)) = t :: B →
      first_at l (del key R) =
        if l < t.height ∧ pred_at l key a R = a then first_at l B else first_at l R := by
  intro R
  induction R with
  | nil => intro a _ h; simp at h
  | cons e R ih =>
    intro a ha hd
    have hae : a ≠ e.addr := fun h => ha (by simp [h])
    have haR : a ∉ R.map Entry.addr := fun h => ha (by simp at h ⊢; exact Or.inr h)
    simp only [del, pred_at]
    by_cases hk : e.key < key
    · simp only [List.dropWhile, hk, decide_True] at hd
      simp only [hk, if_true, first_at]
      by_cases hl : l < e.height
      · simp only [hl, if_true]
        rw [if_neg]
        rintro ⟨_, h⟩
        exact pred_at_ne l key (R := R) (a := e.addr) (b := a) hae haR h
      · simp only [hl, if_false]
        exact ih a haR hd
    · simp only [List.dropWhile, hk, decide_False, List.cons.injEq] at hd
      obtain ⟨rfl, rfl⟩ := hd
      simp only [hk, if_false, and_true, first_at]
      split <;> rfl

theorem relink_node_of_del {key : K} {t : Entry K} {B : List (Entry K)} {p : Nat → Nat} {a : Nat}
    {k : Option K} {ht : Nat} {R : List (Entry K)} (ha : a ∉ R.map Entry.addr)
    (hd : R.dropWhile (fun e => decide (e.key < key)) = t :: B)
    (h1 : ∀ l, l < t.height → l < ht → p l = pred_at l key a R)
    (h2 : ∀ l, l < t.height → ¬ l < ht → a ≠ p l) :
    relink t.height p (fun l => first_at l B) a (node_of k ht R) = node_of k ht (del key R) := by
  simp only [relink, node_of, Node.mk.injEq, true_and]
  funext l
  by_cases hl : l < ht
  · simp only [hl, if_true]
    rw [first_at_del R a ha hd]
    by_cases hh : l < t.height
    · simp only [hh, true_and, h1 l hh hl]
      by_cases hp : pred_at l key a R = a
      · rw [if_pos hp, if_pos hp.symm]
      · rw [if_neg hp, if_neg (Ne.symm hp)]
    · simp [hh]
  · simp only [hl, if_false]
    rw [if_neg]
    rintro ⟨hh, hp⟩
    exact h2 l hh hl hp

theorem pred_at_ne_target {l : Nat} {key : K} {t : Entry K} {B : List (Entry K)} :
    ∀ (R : List (Entry K)) (a : Nat), (R.map Entry.addr).Nodup → a ∉ R.map Entry.addr →
      R.dropWhile (fun e => decide (e.key < key)) = t :: B → pred_at l key a R ≠ t.addr := by
  intro R
  induction R with
  | nil => intro a _ _ h; simp at h
  | cons e R ih =>
    intro a hnd ha hd
    have hnd' : e.addr ∉ R.map Entry.addr ∧ (R.map Entry.addr).Nodup := List.nodup_cons.1 hnd
    have haR : a ∉ R.map Entry.addr := fun h => ha (by simp at h ⊢; exact Or.inr h)
    by_cases hk : e.key < key
    · simp only [List.dropWhile, hk, decide_True] at hd
      simp only [pred_at, hk, if_true]
      split
      · exact ih e.addr hnd'.2 hnd'.1 hd
      · exact ih a hnd'.2 haR hd
    · simp only [List.dropWhile, hk, decide_False, List.cons.injEq] at hd
      obtain ⟨rfl, rfl⟩ := hd
      simp only [pred_at, hk, if_false]
      exact fun h => ha (by simp [h])

theorem del_linked {M M' : Mem K} {key : K} {t : Entry K} {B : List (Entry K)} {p : Nat → Nat}
    (hrel : ∀ x, x ≠ t.addr → M' x = (M x).map (relink t.height p (fun l => first_at l B) x)) :
    ∀ (R : List (Entry K)) (q : Nat → Nat),
      Linked M R → (R.map Entry.addr).Nodup → (∀ l, q l ∉ R.map Entry.addr) →
      (∀ l, l < t.height → p l = pred_at l key (q l) R) →
      R.dropWhile (fun e => decide (e.key < key)) = t :: B →
      Linked M' (del key R) := by
  intro R
  induction R with
  | nil => intro q _ _ _ _ h; simp at h
  | cons e R ih =>
    intro q hM hnd hq hp hd
    have hnd' : e.addr ∉ R.map Entry.addr ∧ (R.map Entry.addr).Nodup := List.nodup_cons.1 hnd
    have hqe : ∀ l, q l ≠ e.addr := fun l h => hq l (by simp [h])
    have hqR : ∀ l, q l ∉ R.map Entry.addr := fun l h => hq l (by simp at h ⊢; exact Or.inr h)
    by_cases hk : e.key < key
    · have hd' : R.dropWhile (fun e => decide (e.key < key)) = t :: B := by
        simpa [List.dropWhile, hk] using hd
      have hne : e.addr ≠ t.addr := fun h =>
        hnd'.1 (h ▸ List.mem_map.2 ⟨t, dropWhile_mem hd', rfl⟩)
      simp only [del, hk, if_true]
      refine ⟨?_, ih (fun l => if l < e.height then e.addr else q l) hM.2 hnd'.2 ?_ ?_ hd'⟩
      · rw [hrel _ hne, hM.1, Option.map_some']
        congr 1
        apply relink_node_of_del hnd'.1 hd'
        · intro l hl hle
          rw [hp l hl]
          simp [pred_at, hk, hle]
        · intro l hl hle
          rw [hp l hl]
          simp only [pred_at, hk, hle, if_true, if_false]
          exact Ne.symm (pred_at_ne _ _ (hqe l).symm hnd'.1)
      · intro l
        show (if l < e.height then e.addr else q l) ∉ R.map Entry.addr
        split
        · exact hnd'.1
        · exact hqR l
      · intro l hl
        rw [hp l hl]
        simp [pred_at, hk]
    · simp only [List.dropWhile, hk, decide_False, List.cons.injEq] at hd
      obtain ⟨rfl, rfl⟩ := hd
      simp only [del, hk, if_false]
      refine hM.2.congr ?_
      intro x hx
      have hxn : x ≠ e.addr := fun h => hnd'.1 (h ▸ hx)
      rw [hrel x hxn]
      cases hMx : M x with
      | none => rfl
      | some n =>
        rw [Option.map_some', relink_eq_self]
        intro l hl
        rw [hp l hl]
        simp only [pred_at, hk, if_false]
        exact fun h => hqR l (h ▸ hx)

theorem mem_del {key : K} {t : Entry K} {B : List (Entry K)} :
    ∀ {R : List (Entry K)}, R.dropWhile (fun e => decide (e.key < key)) = t :: B →
      ∀ x, x ∈ R ↔ x = t ∨ x ∈ del key R := by
  intro R
  induction R with
  | nil => intro h; simp at h
  | cons e R ih =>
    intro hd x
    by_cases hk : e.key < key
    · have hd' : R.dropWhile (fun e => decide (e.key < key)) = t :: B := by
        simpa [List.dropWhile, hk] using hd
      simp only [del, hk, if_true, List.mem_cons, ih hd' x]
      tauto
    · simp only [List.dropWhile, hk, decide_False, List.cons.injEq] at hd
      obtain ⟨rfl, rfl⟩ := hd
      simp only [del, hk, if_false, List.mem_cons]

theorem del_sublist (key : K) : ∀ R : List (Entry K), (del key R).Sublist R := by
  intro R
  induction R with
  | nil => exact List.Sublist.refl _
  | cons e R ih =>
    simp only [del]
    split
    · exact ih.cons₂ e
    · exact List.sublist_cons_self e R

theorem target_not_mem_del {key : K} {t : Entry K} {B : List (Entry K)} :
    ∀ {R : List (Entry K)}, (R.map Entry.addr).Nodup →
      R.dropWhile (fun e => decide (e.key < key)) = t :: B →
      t.addr ∉ (del key R).map Entry.addr := by
  intro R
  induction R with
  | nil => intro _ h; simp at h
  | cons e R ih =>
    intro hnd hd
    have hnd' : e.addr ∉ R.map Entry.addr ∧ (R.map Entry.addr).Nodup := List.nodup_cons.1 hnd
    by_cases hk : e.key < key
    · have hd' : R.dropWhile (fun e => decide (e.key < key)) = t :: B := by
        simpa [List.dropWhile, hk] using hd
      simp only [del, hk, if_true, List.map_cons, List.mem_cons, not_or]
      exact ⟨fun h => hnd'.1 (h ▸ List.mem_map.2 ⟨t, dropWhile_mem hd', rfl⟩), ih hnd'.2 hd'⟩
    · simp only [List.dropWhile, hk, decide_False, List.cons.injEq] at hd
      obtain ⟨rfl, rfl⟩ := hd
      simpa [del, hk] using hnd'.1

theorem Rep.remove_absent {s : SkipList K} {L : List (Entry K)} (h : Rep s L) {key : K}
    (hk : ∀ e ∈ L, e.key ≠ key) : remove s key = some (false, s) := by
  have hc : contain s key = some false := by
    rw [h.contain_eq key]
    simp only [Option.some.injEq, decide_eq_false_iff_not]
    rintro ⟨e, he, hek⟩
    exact hk e he hek
  simp [SkipList.remove, hc]

theorem Rep.remove_present {s : SkipList K} {L : List (Entry K)} (h : Rep s L) {key : K}
    {t : Entry K} {B : List (Entry K)}
    (hd : L.dropWhile (fun e => decide (e.key < key)) = t :: B) (htk : t.key = key) :
    ∃ u, remove s key = some (true, u) ∧ Rep u (del key L) ∧
      u._mt = s._mt ∧ u._max_height = s._max_height ∧ u._head_node = s._head_node ∧
      u.brk = s.brk ∧ u.mem t.addr = none := by
  have htL : t ∈ L := dropWhile_mem hd
  obtain ⟨htb, hth, hh1, hh2⟩ := h.bounds t htL
  have hc : contain s key = some true := by
    rw [h.contain_eq key]
    simp only [Option.some.injEq, decide_eq_true_eq]
    exact ⟨t, htL, htk⟩
  have htop : t.height ≤ s._current_height := by
    rw [h.height_eq]; exact le_top_height htL
  have hmh := h.height_le
  obtain ⟨prev, ho, hsz, hlo, hhi⟩ := h.fllb_eq key (PrevArr.fresh s._max_height) rfl
  have hread : ∀ l, l < t.height → prev.read l = some (pred_at l key s._head_node L) := by
    intro l hl
    have hl2 : l < prev.size := by rw [hsz]; exact lt_of_lt_of_le hl hh2
    simp only [PrevArr.read, hl2, if_true]
    exact hlo l (lt_of_lt_of_le hl htop)
  have hpn : ∀ l, l < t.height → ∃ n, s.mem (pred_at l key s._head_node L) = some n ∧
      l < n._height ∧ n._next l = some (first_at l (t :: B)) := by
    intro l hl
    rw [← hd]
    exact pred_at_node L s._head_node h.linked
      ⟨_, h.head_node, lt_of_lt_of_le hl hh2, by simp [node_of, lt_of_lt_of_le hl hh2]⟩
  have hnode := (h.linked.dropWhile_node hd).1
  have hp0 : get_next s.mem (pred_at 0 key s._head_node L) 0 = some (some t.addr) := by
    obtain ⟨n, hn, hl, hnx⟩ := hpn 0 hh1
    simp only [get_next, hn, Option.some_bind, Node.get_next, hl, if_true, hnx, first_at,
      show 0 < t.height from hh1]
  obtain ⟨M, hM, hrel⟩ := splice_out_eq prev t.addr t.height s.mem
    (fun l => pred_at l key s._head_node L) (fun l => first_at l B) hread
    ⟨_, hnode, le_refl _, fun i hi => by simp [node_of, hi]⟩ (by
      intro i hi
      obtain ⟨n, hn, hl, _⟩ := hpn i hi
      exact ⟨pred_at_ne_target L s._head_node h.nodup h.head_not_mem hd, n, hn, hl⟩)
  let Mf : Mem K := Function.update M t.addr none
  have hMf : ∀ x, x ≠ t.addr → Mf x = M x := fun x hx => Function.update_noteq hx _ _
  have hhead : Mf s._head_node = some (node_of none s._max_height (del key L)) := by
    rw [hMf _ (Ne.symm hth), hrel _ (Ne.symm hth), h.head_node, Option.map_some']
    congr 1
    exact relink_node_of_del h.head_not_mem hd (fun l _ _ => rfl)
      (fun l hl hl2 => absurd (lt_of_lt_of_le hl hh2) hl2)
  have hsub := del_sublist key L
  have htopd : top_height (del key L) ≤ s._current_height := by
    rw [h.height_eq]
    exact top_height_le fun e he => le_top_height (hsub.subset he)
  have hshrink := shrink_loop_eq Mf s._head_node (del key L)
    s._max_height (fun l hl => get_next_node_of hhead hl) (s._current_height + 1)
    s._current_height (le_trans hh1 htop) hmh htopd (Nat.le_succ _)
  have hdec : size_dec s._current_height = s._current_height - 1 :=
    size_dec_pos (lt_of_lt_of_le hh1 htop)
  refine ⟨{ s with mem := Mf, _current_height := top_height (del key L) }, ?_, ?_,
    rfl, rfl, rfl, rfl, Function.update_same _ _ _⟩
  · simp only [SkipList.remove, hc, Option.some_bind, Bool.not_true, Bool.false_eq_true, if_false,
      ho, hread 0 hh1, hp0, get_height_node_of hnode, hM, delete_node, hdec,
      get_next_node_of hhead (show s._current_height - 1 < s._max_height by omega), hshrink,
      Option.map_some']
  · exact
      { sorted := h.sorted.sublist hsub
        nodup := h.nodup.sublist (hsub.map _)
        bounds := fun e he => h.bounds e (hsub.subset he)
        max_pos := h.max_pos
        head_lt := h.head_lt
        height_eq := rfl
        head_node := hhead
        linked := by
          show Linked Mf _
          have hl : Linked M (del key L) :=
            del_linked hrel L (fun _ => s._head_node) h.linked h.nodup
              (fun _ => h.head_not_mem) (fun l _ => rfl) hd
          exact hl.congr fun x hx => hMf x fun hxt => target_not_mem_del h.nodup hd (hxt ▸ hx)
        free := by
          intro x hxh hx
          show Mf x = none
          by_cases hxt : x = t.addr
          · rw [hxt]; exact Function.update_same _ _ _
          · have hxL : x ∉ L.map Entry.addr := by
              intro hxL
              obtain ⟨e, he, rfl⟩ := List.mem_map.1 hxL
              rcases (mem_del hd e).1 he with rfl | he
              · exact hxt rfl
              · exact hx (List.mem_map.2 ⟨e, he, rfl⟩)
            rw [hMf x hxt, hrel x hxt, h.free x hxh hxL]
            rfl }

end Writing

/-! ## Reachable states and the claims -/

section Claims

variable {K : Type}

theorem filter_zero_lt {R : List (Entry K)} (h : ∀ e ∈ R, 1 ≤ e.height) :
    (R.filter fun e => decide (0 < e.height)) = R :=
  List.filter_eq_self.2 fun e he => by simpa using h e he

theorem mem_keys_iff {L : List (Entry K)} {k : K} :
    k ∈ L.map Entry.key ↔ ∃ e ∈ L, e.key = k := by
  simp [List.mem_map]

theorem map_pair_fst (R : List (Entry K)) :
    (R.map fun e => (e.key, e.height)).map Prod.fst = R.map Entry.key := by
  simp [Function.comp_def]

theorem new_eq (max_height : Nat) (seed : List Nat) :
    new (K := K) max_height seed = some
      { mem := Function.update (fun _ => none) 0 (some (node_of none max_height [])), brk := 1,
        _head_node := 0, _current_height := 0, _max_height := max_height, _mt := seed } := by
  simp [new, new_node_eq]

theorem draw_height_of_stops : ∀ (mt : List Nat) (h0 : Nat), 0 < stops mt →
    ∃ h mt', draw_height mt h0 = some (h, mt') ∧ stops mt' + 1 = stops mt := by
  intro mt
  induction mt with
  | nil => intro h0 h; simp [stops] at h
  | cons d mt ih =>
    intro h0 h
    by_cases hd : d = 0
    · subst hd
      have h' : 0 < stops mt := by simpa [stops] using h
      obtain ⟨h1, mt', e1, e2⟩ := ih (h0 + 1) h'
      exact ⟨h1, mt', by simp [draw_height, e1], by simpa [stops] using e2⟩
    · exact ⟨h0, mt, by simp [draw_height, hd], by simp [stops, hd]⟩

theorem get_random_height_of_stops (mh : Nat) {mt : List Nat} (h : 0 < stops mt) :
    ∃ ht mt', get_random_height mh mt = some (ht, mt') ∧ stops mt' + 1 = stops mt := by
  obtain ⟨h1, mt', e1, e2⟩ := draw_height_of_stops mt 1 h
  exact ⟨if h1 > mh then mh else h1, mt', by simp [get_random_height, e1], e2⟩

theorem top_height_eq_foldr (R : List (Entry K)) :
    top_height R = ((R.map fun e => (e.key, e.height)).map Prod.snd).foldr max 0 := by
  induction R with
  | nil => rfl
  | cons e R ih => simp only [top_height, List.map_cons, List.foldr_cons, ih]

theorem shrink_trace_pos (M : Mem K) (head : Nat) :
    ∀ (fuel ch : Nat) (node : Ptr), 1 ≤ ch → ∀ c ∈ shrink_trace M head fuel ch node, 1 ≤ c := by
  intro fuel
  induction fuel with
  | zero => intro ch node _ c hc; simp [shrink_trace] at hc
  | succ fuel ih =>
    intro ch node h1 c hc
    cases node with
    | some a => simp [shrink_trace] at hc
    | none =>
      have hd : size_dec ch = ch - 1 := size_dec_pos (by omega)
      simp only [shrink_trace, hd, List.mem_cons] at hc
      rcases hc with rfl | hc
      · exact h1
      · by_cases h0 : ch - 1 = 0
        · simp [h0] at hc
        · simp only [h0, if_false, List.mem_cons] at hc
          rcases hc with rfl | hc
          · omega
          · cases hg : get_next M head (size_dec (ch - 1)) with
            | none => simp [hg] at hc
            | some nd =>
              simp only [hg] at hc
              exact ih (ch - 1) nd (by omega) c hc

theorem countP_render_keys (ks : List K) : (render_keys ks).countP Tok.is_endl = 0 := by
  induction ks with
  | nil => rfl
  | cons k ks ih => simp [render_keys, List.countP_cons, Tok.is_endl, ih]

theorem countP_render_line (es : List (K × Nat)) (L : Nat) :
    (render_line es L).countP Tok.is_endl = 1 := by
  simp [render_line, List.countP_append, List.countP_cons, countP_render_keys, Tok.is_endl]

theorem countP_render_spec (es : List (K × Nat)) :
    ∀ n, (render_spec es n).countP Tok.is_endl = n := by
  intro n
  induction n with
  | zero => rfl
  | succ n ih => simp [render_spec, List.countP_append, countP_render_line, ih]; omega

theorem print_chain_linked {M : Mem K} {l : Nat} {R : List (Entry K)} (hM : Linked M R) :
    ∀ fuel, R.length ≤ fuel →
      print_chain M l fuel (first_at l R)
        = some (render_keys ((R.filter fun e => l < e.height).map Entry.key)) := by
  induction R with
  | nil => intro fuel _; cases fuel <;> simp [first_at, print_chain, render_keys]
  | cons e R ih =>
    intro fuel hf
    obtain ⟨he, hR⟩ := hM
    by_cases hl : l < e.height
    · obtain ⟨f, rfl⟩ : ∃ f, fuel = f + 1 := ⟨fuel - 1, by simp at hf; omega⟩
      simp only [first_at, hl, if_true, print_chain, get_key_node_of he, get_next_node_of he hl,
        Option.some_bind]
      rw [ih hR f (by simpa using hf)]
      simp [List.filter_cons, hl, render_keys]
    · simp only [first_at, hl, if_false]
      rw [ih hR fuel (by simp at hf; omega)]
      simp [List.filter_cons, hl]

theorem draw_height_eq : ∀ (mt : List Nat) (h0 : Nat), (∃ d ∈ mt, d ≠ 0) →
    draw_height mt h0 = some (h0 + (mt.takeWhile fun d => decide (d = 0)).length,
      (mt.dropWhile fun d => decide (d = 0)).tail) := by
  intro mt
  induction mt with
  | nil => intro h0 h; simp at h
  | cons d mt ih =>
    intro h0 h
    by_cases hd : d = 0
    · subst hd
      have h' : ∃ d ∈ mt, d ≠ 0 := by
        obtain ⟨x, hx, hx0⟩ := h
        rcases List.mem_cons.1 hx with rfl | hx
        · exact absurd rfl hx0
        · exact ⟨x, hx, hx0⟩
      simp only [draw_height, if_true, ih (h0 + 1) h', List.takeWhile, List.dropWhile,
        decide_True, List.length_cons]
      congr 2
      omega
    · simp [draw_height, hd, List.takeWhile, List.dropWhile]

theorem le_length_takeWhile_zero : ∀ (mt : List Nat) (n : Nat),
    n ≤ (mt.takeWhile fun d => decide (d = 0)).length ↔ ∀ i, i < n → mt[i]? = some 0 := by
  intro mt
  induction mt with
  | nil =>
    intro n
    simp only [List.takeWhile, List.length_nil, Nat.le_zero, List.getElem?_nil]
    constructor
    · rintro rfl i hi; omega
    · intro h
      by_contra hn
      have := h 0 (by omega)
      simp at this
  | cons d mt ih =>
    intro n
    by_cases hd : d = 0
    · subst hd
      simp only [List.takeWhile, decide_True, List.length_cons]
      cases n with
      | zero => simp
      | succ n =>
        rw [Nat.succ_le_succ_iff, ih n]
        constructor
        · intro h i hi
          cases i with
          | zero => simp
          | succ i => simpa using h i (by omega)
        · intro h i hi
          simpa using h (i + 1) (by omega)
    · simp only [List.takeWhile, hd, decide_False, List.length_nil, Nat.le_zero]
      constructor
      · rintro rfl i hi; omega
      · intro h
        by_contra hn
        have := h 0 (by omega)
        simp at this
        exact hd this

theorem getLast_cons_getD {α : Type} (x : α) (X : List α) (d : α) :
    ((x :: X).getLast?).getD d = (X.getLast?).getD x := by
  cases X with
  | nil => rfl
  | cons y Y =>
    rw [List.getLast?_cons_cons]
    cases h : (y :: Y).getLast? with
    | none => simp at h
    | some z => rfl

theorem Linked.unique {M M' : Mem K} {R : List (Entry K)} (h : Linked M R)
    (h' : Linked M' R) : ∀ x ∈ R.map Entry.addr, M x = M' x := by
  induction R with
  | nil => intro x hx; simp at hx
  | cons e R ih =>
    intro x hx
    simp only [List.map_cons, List.mem_cons] at hx
    by_cases hxe : x = e.addr
    · rw [hxe, h.1, h'.1]
    · rcases hx with hx | hx
      · exact absurd hx hxe
      · exact ih h.2 h'.2 x hx

variable [LinearOrder K]

theorem insert_none_of_draw {s : SkipList K} {key : K} (hc : contain s key = some false)
    (hd : get_random_height s._max_height s._mt = none) : insert s key = none := by
  simp [SkipList.insert, hc, hd]

theorem Reachable.rep {s : SkipList K} (hs : Reachable s) : ∃ L, Rep s L := by
  induction hs with
  | init mh seed s hm hnew => exact ⟨[], Rep.init hm hnew⟩
  | insert s key b t _ hi ih =>
    obtain ⟨L, hL⟩ := ih
    by_cases hk : ∃ e ∈ L, e.key = key
    · rw [hL.insert_present hk] at hi
      simp only [Option.some.injEq, Prod.mk.injEq] at hi
      exact ⟨L, hi.2 ▸ hL⟩
    · have hk' : ∀ e ∈ L, e.key ≠ key := fun e he hek => hk ⟨e, he, hek⟩
      cases hd : get_random_height s._max_height s._mt with
      | none =>
        have hc : contain s key = some false := by
          rw [hL.contain_eq key]; simp [hk]
        rw [insert_none_of_draw hc hd] at hi
        simp at hi
      | some r =>
        obtain ⟨r1, r2⟩ := r
        obtain ⟨u, hu, hrep, _⟩ := hL.insert_absent hk' hd
        rw [hu] at hi
        simp only [Option.some.injEq, Prod.mk.injEq] at hi
        exact ⟨_, hi.2 ▸ hrep⟩
  | remove s key b t _ hr ih =>
    obtain ⟨L, hL⟩ := ih
    by_cases hk : ∃ e ∈ L, e.key = key
    · obtain ⟨x, B, hd, hx⟩ := dropWhile_of_mem hL.sorted hk
      obtain ⟨u, hu, hrep, _⟩ := hL.remove_present hd hx
      rw [hu] at hr
      simp only [Option.some.injEq, Prod.mk.injEq] at hr
      exact ⟨_, hr.2 ▸ hrep⟩
    · have hk' : ∀ e ∈ L, e.key ≠ key := fun e he hek => hk ⟨e, he, hek⟩
      rw [hL.remove_absent hk'] at hr
      simp only [Option.some.injEq, Prod.mk.injEq] at hr
      exact ⟨L, hr.2 ▸ hL⟩

theorem reachable_insert_get {s : SkipList K} (hs : Reachable s) (k : K)
    (h : (insert s k).isSome) : Reachable ((insert s k).get h).2 :=
  Reachable.insert s k ((insert s k).get h).1 _ hs (Option.some_get h).symm

theorem reachable_remove_get {s : SkipList K} (hs : Reachable s) (k : K)
    (h : (remove s k).isSome) : Reachable ((remove s k).get h).2 :=
  Reachable.remove s k ((remove s k).get h).1 _ hs (Option.some_get h).symm

theorem reachable_demo_new : Reachable demo_new :=
  Reachable.init 4 demo_seed demo_new (by decide) (Option.some_get _).symm

theorem reachable_demo_1 : Reachable demo_1 := reachable_insert_get reachable_demo_new 5 _

theorem reachable_demo_2 : Reachable demo_2 := reachable_insert_get reachable_demo_1 3 _

theorem reachable_demo : Reachable demo := reachable_insert_get reachable_demo_2 8 _

theorem Rep.entries_zero {s : SkipList K} {L : List (Entry K)} (h : Rep s L) :
    level_entries s 0 = some (L.map fun e => (e.key, e.height)) := by
  rw [h.level_entries_eq h.max_pos, filter_zero_lt fun e he => (h.bounds e he).2.2.1]

theorem Rep.keys_zero {s : SkipList K} {L : List (Entry K)} (h : Rep s L) :
    level_keys s 0 = some (L.map Entry.key) := by
  simp [level_keys, h.entries_zero, Function.comp_def]

/-- C1: in every reachable state, `contain(k)` returns, and returns true exactly when `k` is a
key of the level-0 chain. -/
theorem contain_iff_stored (s : SkipList K) (hs : Reachable s) (k : K) :
    ∃ ks, level_keys s 0 = some ks ∧ contain s k = some (decide (k ∈ ks)) := by
  obtain ⟨L, hL⟩ := hs.rep
  refine ⟨_, hL.keys_zero, ?_⟩
  rw [hL.contain_eq k]
  congr 1
  exact decide_eq_decide.2 mem_keys_iff.symm

theorem contain_iff_stored_witness :
    Reachable demo ∧ ∃ ks, level_keys demo 0 = some ks ∧ contain demo 5 = some (decide (5 ∈ ks)) :=
  ⟨reachable_demo, contain_iff_stored demo reachable_demo 5⟩

theorem ins_split (new : Entry K) (R : List (Entry K)) :
    ins new R = R.takeWhile (fun e => decide (e.key < new.key)) ++
      new :: R.dropWhile (fun e => decide (e.key < new.key)) := by
  induction R with
  | nil => rfl
  | cons e R ih =>
    by_cases hk : e.key < new.key
    · simp [ins, hk, List.takeWhile, List.dropWhile, ih]
    · simp [ins, hk, List.takeWhile, List.dropWhile]

theorem takeWhile_lt (key : K) (R : List (Entry K)) :
    ∀ x ∈ R.takeWhile (fun e => decide (e.key < key)), x.key < key := by
  intro x hx
  simpa using List.mem_takeWhile_imp hx

theorem dropWhile_gt {key : K} {R : List (Entry K)}
    (hs : R.Pairwise fun a b => a.key < b.key) (hk : ∀ e ∈ R, e.key ≠ key) :
    ∀ x ∈ R.dropWhile (fun e => decide (e.key < key)), key < x.key := by
  induction R with
  | nil => intro x hx; simp at hx
  | cons e R ih =>
    have hs' := List.pairwise_cons.1 hs
    intro x hx
    by_cases hlt : e.key < key
    · simp only [List.dropWhile, hlt, decide_True] at hx
      exact ih hs'.2 (fun y hy => hk y (List.mem_cons_of_mem _ hy)) x hx
    · simp only [List.dropWhile, hlt, decide_False] at hx
      have hlt' : key < e.key :=
        lt_of_le_of_ne (not_lt.1 hlt) (Ne.symm (hk e (List.mem_cons_self _ _)))
      rcases List.mem_cons.1 hx with rfl | hx
      · exact hlt'
      · exact lt_trans hlt' (hs'.1 x hx)

theorem del_split {key : K} {t : Entry K} {B : List (Entry K)} :
    ∀ {R : List (Entry K)}, R.dropWhile (fun e => decide (e.key < key)) = t :: B →
      del key R = R.takeWhile (fun e => decide (e.key < key)) ++ B := by
  intro R
  induction R with
  | nil => intro h; simp at h
  | cons e R ih =>
    intro hd
    by_cases hk : e.key < key
    · have hd' : R.dropWhile (fun e => decide (e.key < key)) = t :: B := by
        simpa [List.dropWhile, hk] using hd
      simp [del, hk, List.takeWhile, ih hd']
    · simp only [List.dropWhile, hk, decide_False, List.cons.injEq] at hd
      simp [del, hk, List.takeWhile, hd.2]

theorem tail_gt {key : K} {t : Entry K} {B R : List (Entry K)}
    (hs : R.Pairwise fun a b => a.key < b.key)
    (hd : R.dropWhile (fun e => decide (e.key < key)) = t :: B) (ht : t.key = key) :
    ∀ x ∈ B, key < x.key := by
  have h1 := List.takeWhile_append_dropWhile (fun e => decide (e.key < key)) R
  rw [hd] at h1
  rw [← h1] at hs
  have := (List.pairwise_cons.1 (List.pairwise_append.1 hs).2.1).1
  intro x hx
  exact ht ▸ this x hx

/-- C2: on a reachable state where the generator yields the height `h`, `insert(k)` returns
false without change if `k` is stored, and otherwise returns true and adds exactly the entry
`(k, h)` at the sorted position of the level-0 chain, with `_current_height` the maximum of
its old value and `h`. -/
theorem insert_correct (s : SkipList K) (hs : Reachable s) (k : K) (h : Nat) (mt : List Nat)
    (hd : get_random_height s._max_height s._mt = some (h, mt)) :
    ∃ es, level_entries s 0 = some es ∧
      (k ∈ es.map Prod.fst → insert s k = some (false, s)) ∧
      (k ∉ es.map Prod.fst → ∃ t A B, insert s k = some (true, t) ∧ es = A ++ B ∧
        level_entries t 0 = some (A ++ (k, h) :: B) ∧
        (∀ x ∈ A, x.1 < k) ∧ (∀ x ∈ B, k < x.1) ∧
        t._current_height = max s._current_height h) := by
  obtain ⟨L, hL⟩ := hs.rep
  refine ⟨_, hL.entries_zero, ?_, ?_⟩
  · intro hk
    rw [map_pair_fst] at hk
    exact hL.insert_present (mem_keys_iff.1 hk)
  · intro hk
    rw [map_pair_fst] at hk
    have hk' : ∀ e ∈ L, e.key ≠ k := fun e he hek => hk (mem_keys_iff.2 ⟨e, he, hek⟩)
    obtain ⟨t, ht, hrep, _⟩ := hL.insert_absent hk' hd
    refine ⟨t, (L.takeWhile fun e => decide (e.key < k)).map fun e => (e.key, e.height),
      (L.dropWhile fun e => decide (e.key < k)).map fun e => (e.key, e.height), ht, ?_, ?_, ?_, ?_,
      ?_⟩
    · rw [← List.map_append, List.takeWhile_append_dropWhile]
    · rw [hrep.entries_zero, ins_split]
      simp
    · intro x hx
      obtain ⟨e, he, rfl⟩ := List.mem_map.1 hx
      exact takeWhile_lt k L e he
    · intro x hx
      obtain ⟨e, he, rfl⟩ := List.mem_map.1 hx
      exact dropWhile_gt hL.sorted hk' e he
    · rw [hrep.height_eq, top_height_ins, hL.height_eq, max_comm]

theorem insert_correct_witness :
    Reachable demo_2 ∧
    get_random_height demo_2._max_height demo_2._mt = some (3, [1, 1, 0, 0, 0, 0, 1]) ∧
    ∃ es, level_entries demo_2 0 = some es ∧
      (8 ∈ es.map Prod.fst → insert demo_2 8 = some (false, demo_2)) ∧
      (8 ∉ es.map Prod.fst → ∃ t A B, insert demo_2 8 = some (true, t) ∧ es = A ++ B ∧
        level_entries t 0 = some (A ++ (8, 3) :: B) ∧
        (∀ x ∈ A, x.1 < 8) ∧ (∀ x ∈ B, 8 < x.1) ∧
        t._current_height = max demo_2._current_height 3) :=
  ⟨reachable_demo_2, by decide,
    insert_correct demo_2 reachable_demo_2 8 3 [1, 1, 0, 0, 0, 0, 1] (by decide)⟩

/-- C3: on a reachable state, `insert(k)` of a stored key returns false and leaves the whole
state as it was: memory, `_current_height` and the generator. -/
theorem insert_present_unchanged (s : SkipList K) (hs : Reachable s) (k : K) (ks : List K)
    (hks : level_keys s 0 = some ks) (hk : k ∈ ks) : insert s k = some (false, s) := by
  obtain ⟨L, hL⟩ := hs.rep
  rw [hL.keys_zero, Option.some.injEq] at hks
  subst hks
  exact hL.insert_present (mem_keys_iff.1 hk)

theorem insert_present_unchanged_witness :
    Reachable demo ∧ level_keys demo 0 = some [3, 5, 8] ∧ 3 ∈ [3, 5, 8] ∧
      insert demo 3 = some (false, demo) :=
  ⟨reachable_demo, by decide, by decide,
    insert_present_unchanged demo reachable_demo 3 [3, 5, 8] (by decide) (by decide)⟩

/-- C4: on a reachable state, `remove(k)` returns false without change if `k` is not stored,
and otherwise returns true, deletes exactly the entry of key `k` from the level-0 chain, frees
its node, and leaves no chain of any level going through that node. -/
theorem remove_correct (s : SkipList K) (hs : Reachable s) (k : K) :
    ∃ es, level_entries s 0 = some es ∧
      (k ∉ es.map Prod.fst → remove s k = some (false, s)) ∧
      (k ∈ es.map Prod.fst → ∃ t A h B a c, remove s k = some (true, t) ∧
        es = A ++ (k, h) :: B ∧ level_entries t 0 = some (A ++ B) ∧
        (∀ x ∈ A, x.1 < k) ∧ (∀ x ∈ B, k < x.1) ∧
        chain s 0 = some c ∧ a ∈ c ∧ get_key s.mem a = some k ∧ t.mem a = none ∧
        ∀ l, l < s._max_height → ∃ cl, chain t l = some cl ∧ a ∉ cl) := by
  obtain ⟨L, hL⟩ := hs.rep
  refine ⟨_, hL.entries_zero, ?_, ?_⟩
  · intro hk
    rw [map_pair_fst] at hk
    exact hL.remove_absent fun e he hek => hk (mem_keys_iff.2 ⟨e, he, hek⟩)
  · intro hk
    rw [map_pair_fst] at hk
    obtain ⟨x, B, hd, hx⟩ := dropWhile_of_mem hL.sorted (mem_keys_iff.1 hk)
    obtain ⟨t, ht, hrep, _, hmh, _, _, hfree⟩ := hL.remove_present hd hx
    have hsplit := List.takeWhile_append_dropWhile (fun e => decide (e.key < k)) L
    rw [hd] at hsplit
    have hxL : x ∈ L := dropWhile_mem hd
    refine ⟨t, (L.takeWhile fun e => decide (e.key < k)).map fun e => (e.key, e.height),
      x.height, B.map fun e => (e.key, e.height), x.addr, L.map Entry.addr, ht, ?_, ?_, ?_, ?_,
      ?_, ?_, ?_, hfree, ?_⟩
    · conv_lhs => rw [← hsplit]
      simp [hx]
    · rw [hrep.entries_zero, del_split hd]
      simp
    · intro y hy
      obtain ⟨e, he, rfl⟩ := List.mem_map.1 hy
      exact takeWhile_lt k L e he
    · intro y hy
      obtain ⟨e, he, rfl⟩ := List.mem_map.1 hy
      exact tail_gt hL.sorted hd hx e he
    · rw [hL.chain_eq hL.max_pos, filter_zero_lt fun e he => (hL.bounds e he).2.2.1]
    · exact List.mem_map.2 ⟨x, hxL, rfl⟩
    · obtain ⟨R2, hR2⟩ := hL.linked.mem_node x hxL
      rw [get_key_node_of hR2, hx]
    · intro l hl
      refine ⟨_, hrep.chain_eq (by rw [hmh]; exact hl), ?_⟩
      intro hmem
      obtain ⟨e, he, hea⟩ := List.mem_map.1 hmem
      exact target_not_mem_del hL.nodup hd
        (List.mem_map.2 ⟨e, List.mem_of_mem_filter he, hea⟩)

theorem remove_correct_witness :
    Reachable demo ∧ ∃ es, level_entries demo 0 = some es ∧
      (5 ∉ es.map Prod.fst → remove demo 5 = some (false, demo)) ∧
      (5 ∈ es.map Prod.fst → ∃ t A h B a c, remove demo 5 = some (true, t) ∧
        es = A ++ (5, h) :: B ∧ level_entries t 0 = some (A ++ B) ∧
        (∀ x ∈ A, x.1 < 5) ∧ (∀ x ∈ B, 5 < x.1) ∧
        chain demo 0 = some c ∧ a ∈ c ∧ get_key demo.mem a = some 5 ∧ t.mem a = none ∧
        ∀ l, l < demo._max_height → ∃ cl, chain t l = some cl ∧ a ∉ cl) :=
  ⟨reachable_demo, remove_correct demo reachable_demo 5⟩

theorem remove_of_height_zero {s : SkipList K} (h : s._current_height = 0) (k : K) :
    remove s k = some (false, s) ∧ contain s k = some false := by
  have hc : contain s k = some false := by
    simp [SkipList.contain, SkipList.contain_times, h]
  exact ⟨by simp [SkipList.remove, hc], hc⟩

theorem del_keys_ne {key : K} {t : Entry K} {B R : List (Entry K)}
    (hs : R.Pairwise fun a b => a.key < b.key)
    (hd : R.dropWhile (fun e => decide (e.key < key)) = t :: B) (ht : t.key = key) :
    ∀ e ∈ del key R, e.key ≠ key := by
  intro e he
  rw [del_split hd] at he
  rcases List.mem_append.1 he with he | he
  · exact ne_of_lt (takeWhile_lt key R e he)
  · exact ne_of_gt (tail_gt hs hd ht e he)

theorem Rep.contain_false {s : SkipList K} {L : List (Entry K)} (h : Rep s L) {k : K}
    (hk : ∀ e ∈ L, e.key ≠ k) : contain s k = some false := by
  rw [h.contain_eq k]
  simp only [Option.some.injEq, decide_eq_false_iff_not]
  rintro ⟨e, he, hek⟩
  exact hk e he hek

theorem Rep.contain_true {s : SkipList K} {L : List (Entry K)} (h : Rep s L) {k : K}
    (hk : ∃ e ∈ L, e.key = k) : contain s k = some true := by
  rw [h.contain_eq k]
  simp only [Option.some.injEq, decide_eq_true_eq]
  exact hk

/-- C5: on a reachable state, and on a newly constructed list of any `max_height`,
`remove(k)` of a key that is not stored returns false and leaves the whole state as it was
(so every later `contain` answers as before), and `contain(k)` is false. -/
theorem remove_absent_unchanged (s : SkipList K)
    (hs : Reachable s ∨ ∃ max_height seed, new max_height seed = some s) (k : K)
    (hk : ∀ ks, level_keys s 0 = some ks → k ∉ ks) :
    remove s k = some (false, s) ∧ contain s k = some false := by
  rcases hs with hs | ⟨mh, seed, hnew⟩
  · obtain ⟨L, hL⟩ := hs.rep
    have hk' : ∀ e ∈ L, e.key ≠ k := fun e he hek =>
      hk _ hL.keys_zero (mem_keys_iff.2 ⟨e, he, hek⟩)
    exact ⟨hL.remove_absent hk', hL.contain_false hk'⟩
  · rw [new_eq, Option.some.injEq] at hnew
    subst hnew
    exact remove_of_height_zero rfl k

theorem remove_absent_unchanged_witness :
    (Reachable demo_new ∨ ∃ max_height seed, new max_height seed = some demo_new) ∧
    (∀ ks, level_keys demo_new 0 = some ks → 1 ∉ ks) ∧
    demo_new._max_height = 4 ∧ demo_new._current_height = 0 ∧
    remove demo_new 1 = some (false, demo_new) ∧ contain demo_new 1 = some false :=
  have h1 : Reachable demo_new ∨ ∃ max_height seed, new max_height seed = some demo_new :=
    Or.inr ⟨4, demo_seed, (Option.some_get _).symm⟩
  have h2 : ∀ ks, level_keys demo_new 0 = some ks → 1 ∉ ks := fun ks hks => by
    have h0 : level_keys demo_new 0 = some [] := by decide
    rw [h0, Option.some.injEq] at hks
    subst hks
    decide
  ⟨h1, h2, by decide, by decide, remove_absent_unchanged demo_new h1 1 h2⟩

/-- C6: on a reachable state, `contain(k)` is true right after any `insert(k)` that returns
(and `insert(k)` returns whenever the generator yields a height), and `remove(k)` returns and
`contain(k)` is false right after it. -/
theorem round_trip (s : SkipList K) (hs : Reachable s) (k : K) :
    (∀ b t, insert s k = some (b, t) → contain t k = some true) ∧
    ((get_random_height s._max_height s._mt).isSome → (insert s k).isSome) ∧
    (∃ b t, remove s k = some (b, t) ∧ contain t k = some false) := by
  obtain ⟨L, hL⟩ := hs.rep
  by_cases hk : ∃ e ∈ L, e.key = k
  · refine ⟨?_, ?_, ?_⟩
    · intro b t hi
      rw [hL.insert_present hk, Option.some.injEq, Prod.mk.injEq] at hi
      rw [← hi.2]
      exact hL.contain_true hk
    · intro _
      rw [hL.insert_present hk]
      rfl
    · obtain ⟨x, B, hd, hx⟩ := dropWhile_of_mem hL.sorted hk
      obtain ⟨u, hu, hrep, _⟩ := hL.remove_present hd hx
      exact ⟨true, u, hu, hrep.contain_false (del_keys_ne hL.sorted hd hx)⟩
  · have hk' : ∀ e ∈ L, e.key ≠ k := fun e he hek => hk ⟨e, he, hek⟩
    refine ⟨?_, ?_, ?_⟩
    · intro b t hi
      cases hd : get_random_height s._max_height s._mt with
      | none =>
        rw [insert_none_of_draw (hL.contain_false hk') hd] at hi
        simp at hi
      | some r =>
        obtain ⟨r1, r2⟩ := r
        obtain ⟨u, hu, hrep, _⟩ := hL.insert_absent hk' hd
        rw [hu, Option.some.injEq, Prod.mk.injEq] at hi
        rw [← hi.2]
        exact hrep.contain_true ⟨_, mem_ins.2 (Or.inl rfl), rfl⟩
    · intro hsome
      obtain ⟨r, hr⟩ := Option.isSome_iff_exists.1 hsome
      obtain ⟨r1, r2⟩ := r
      obtain ⟨u, hu, _⟩ := hL.insert_absent hk' hr
      rw [hu]
      rfl
    · exact ⟨false, s, hL.remove_absent hk', hL.contain_false hk'⟩

theorem round_trip_witness :
    Reachable demo_1 ∧
    (∀ b t, insert demo_1 7 = some (b, t) → contain t 7 = some true) ∧
    ((get_random_height demo_1._max_height demo_1._mt).isSome → (insert demo_1 7).isSome) ∧
    (∃ b t, remove demo_1 7 = some (b, t) ∧ contain t 7 = some false) :=
  ⟨reachable_demo_1, round_trip demo_1 reachable_demo_1 7⟩

theorem fresh_flags_congr {a b : List K} (h : ∀ x, x ∈ a ↔ x ∈ b) :
    ∀ ks : List K, fresh_flags a ks = fresh_flags b ks := by
  intro ks
  induction ks generalizing a b with
  | nil => rfl
  | cons k ks ih =>
    simp only [fresh_flags]
    rw [ih (a := k :: a) (b := k :: b) (fun x => by simp [h x])]
    congr 1
    exact decide_eq_decide.2 (not_congr (h k))

theorem Rep.insert_cases {s : SkipList K} {L : List (Entry K)} (h : Rep s L) {k : K} {b : Bool}
    {t : SkipList K} (hi : insert s k = some (b, t)) :
    (b = false ∧ t = s ∧ k ∈ L.map Entry.key) ∨
    (b = true ∧ k ∉ L.map Entry.key ∧ ∃ new : Entry K, new.key = k ∧ Rep t (ins new L)) := by
  by_cases hk : ∃ e ∈ L, e.key = k
  · rw [h.insert_present hk, Option.some.injEq, Prod.mk.injEq] at hi
    exact Or.inl ⟨hi.1.symm, hi.2.symm, mem_keys_iff.2 hk⟩
  · have hk' : ∀ e ∈ L, e.key ≠ k := fun e he hek => hk ⟨e, he, hek⟩
    cases hd : get_random_height s._max_height s._mt with
    | none =>
      rw [insert_none_of_draw (h.contain_false hk') hd] at hi
      simp at hi
    | some r =>
      obtain ⟨r1, r2⟩ := r
      obtain ⟨u, hu, hrep, _⟩ := h.insert_absent hk' hd
      rw [hu, Option.some.injEq, Prod.mk.injEq] at hi
      exact Or.inr ⟨hi.1.symm, fun hm => hk (mem_keys_iff.1 hm), _, rfl, hi.2 ▸ hrep⟩

theorem insert_all_rep : ∀ (ks : List K) (s : SkipList K) (L : List (Entry K)) (bs : List Bool)
    (t : SkipList K), Rep s L → insert_all s ks = some (bs, t) →
    ∃ L', Rep t L' ∧ (∀ k, k ∈ L'.map Entry.key ↔ k ∈ L.map Entry.key ∨ k ∈ ks) ∧
      bs = fresh_flags (L.map Entry.key) ks := by
  intro ks
  induction ks with
  | nil =>
    intro s L bs t h hi
    simp only [insert_all, Option.some.injEq, Prod.mk.injEq] at hi
    exact ⟨L, hi.2 ▸ h, fun k => by simp, by rw [← hi.1]; rfl⟩
  | cons k ks ih =>
    intro s L bs t h hi
    simp only [insert_all, Option.bind_eq_some, Option.map_eq_some'] at hi
    obtain ⟨⟨b1, t1⟩, h1, ⟨bs2, t2⟩, h2, h3⟩ := hi
    simp only [Prod.mk.injEq] at h3
    obtain ⟨rfl, rfl⟩ := h3
    rcases h.insert_cases h1 with ⟨rfl, rfl, hk⟩ | ⟨rfl, hk, new, hnew, hrep⟩
    · obtain ⟨L', hL', hmem, hbs⟩ := ih _ L _ _ h h2
      refine ⟨L', hL', ?_, ?_⟩
      · intro x
        rw [hmem x, List.mem_cons]
        constructor
        · rintro (hx | hx)
          · exact Or.inl hx
          · exact Or.inr (Or.inr hx)
        · rintro (hx | rfl | hx)
          · exact Or.inl hx
          · exact Or.inl hk
          · exact Or.inr hx
      · simp only [fresh_flags, hk, not_true_eq_false, decide_False, List.cons.injEq, true_and]
        rw [hbs]
        exact fresh_flags_congr (fun x => by
          simp only [List.mem_cons]
          constructor
          · exact fun hx => Or.inr hx
          · rintro (rfl | hx)
            · exact hk
            · exact hx) ks
    · obtain ⟨L', hL', hmem, hbs⟩ := ih _ _ _ _ hrep h2
      have hkeys : ∀ x, x ∈ (ins new L).map Entry.key ↔ x ∈ k :: L.map Entry.key := by
        intro x
        simp only [List.mem_map, List.mem_cons, mem_ins]
        constructor
        · rintro ⟨e, rfl | he, rfl⟩
          · exact Or.inl hnew
          · exact Or.inr ⟨e, he, rfl⟩
        · rintro (rfl | ⟨e, he, rfl⟩)
          · exact ⟨new, Or.inl rfl, hnew⟩
          · exact ⟨e, Or.inr he, rfl⟩
      refine ⟨L', hL', ?_, ?_⟩
      · intro x
        rw [hmem x, hkeys x, List.mem_cons, List.mem_cons]
        tauto
      · simp only [fresh_flags, hk, not_false_eq_true, decide_True, List.cons.injEq, true_and]
        rw [hbs]
        exact fresh_flags_congr hkeys ks

theorem insert_all_returns : ∀ (ks : List K) (s : SkipList K) (L : List (Entry K)),
    Rep s L → ks.length ≤ stops s._mt → (insert_all s ks).isSome := by
  intro ks
  induction ks with
  | nil => intro s L _ _; rfl
  | cons k ks ih =>
    intro s L h hst
    simp only [List.length_cons] at hst
    by_cases hk : ∃ e ∈ L, e.key = k
    · have := ih s L h (by omega)
      obtain ⟨r, hr⟩ := Option.isSome_iff_exists.1 this
      simp [insert_all, h.insert_present hk, hr]
    · have hk' : ∀ e ∈ L, e.key ≠ k := fun e he hek => hk ⟨e, he, hek⟩
      obtain ⟨ht, mt', hd, hst'⟩ := get_random_height_of_stops s._max_height
        (show 0 < stops s._mt by omega)
      obtain ⟨u, hu, hrep, hmt, _⟩ := h.insert_absent hk' hd
      have := ih u _ hrep (by rw [hmt]; omega)
      obtain ⟨r, hr⟩ := Option.isSome_iff_exists.1 this
      simp [insert_all, hu, hr]

theorem length_eq_dedup {a b : List K} (ha : a.Nodup) (h : ∀ x, x ∈ a ↔ x ∈ b) :
    a.length = b.dedup.length := by
  have h1 : a.toFinset = b.toFinset := by
    ext x; simp [h x]
  rw [← List.toFinset_card_of_nodup ha, h1, List.card_toFinset]

theorem Rep.keys_sorted {s : SkipList K} {L : List (Entry K)} (h : Rep s L) :
    (L.map Entry.key).Pairwise (· < ·) :=
  List.pairwise_map.2 h.sorted

/-- C7: for every sequence of `insert` calls on a newly constructed list (`max_height ≥ 1`)
and every sequence of draws, the calls all return when the draws hold a stop for each call;
whenever they return, each call returned true exactly at the first occurrence of its key,
`contain(k)` then holds exactly for the keys of the sequence, and the level-0 chain lists the
distinct keys, once each. -/
theorem insert_all_distinct (max_height : Nat) (seed : List Nat) (ks : List K)
    (hm : 1 ≤ max_height) :
    ∃ s, new max_height seed = some s ∧
      (ks.length ≤ stops seed → (insert_all s ks).isSome) ∧
      ∀ bs t, insert_all s ks = some (bs, t) →
        bs = fresh_flags [] ks ∧ (∀ k, contain t k = some (decide (k ∈ ks))) ∧
        ∃ es, level_keys t 0 = some es ∧ es.Pairwise (· < ·) ∧ (∀ k, k ∈ es ↔ k ∈ ks) ∧
          es.length = ks.dedup.length := by
  refine ⟨_, new_eq max_height seed, ?_, ?_⟩
  · intro hst
    exact insert_all_returns ks _ [] (Rep.init hm (new_eq max_height seed)) hst
  · intro bs t hi
    obtain ⟨L, hL, hmem, hbs⟩ := insert_all_rep ks _ [] bs t
      (Rep.init hm (new_eq max_height seed)) hi
    have hmem' : ∀ k, k ∈ L.map Entry.key ↔ k ∈ ks := fun k => by simpa using hmem k
    refine ⟨hbs, ?_, L.map Entry.key, hL.keys_zero, hL.keys_sorted, hmem', ?_⟩
    · intro k
      rw [hL.contain_eq k]
      congr 1
      exact decide_eq_decide.2 (mem_keys_iff.symm.trans (hmem' k))
    · exact length_eq_dedup (hL.keys_sorted.imp ne_of_lt) hmem'

theorem insert_all_distinct_witness :
    1 ≤ 4 ∧ ∃ s, new 4 demo_seed = some s ∧
      ([5, 3, 5, 8, 3].length ≤ stops demo_seed → (insert_all s [5, 3, 5, 8, 3]).isSome) ∧
      ∀ bs t, insert_all s [5, 3, 5, 8, 3] = some (bs, t) →
        bs = fresh_flags [] [5, 3, 5, 8, 3] ∧
        (∀ k, contain t k = some (decide (k ∈ [5, 3, 5, 8, 3]))) ∧
        ∃ es, level_keys t 0 = some es ∧ es.Pairwise (· < ·) ∧
          (∀ k, k ∈ es ↔ k ∈ [5, 3, 5, 8, 3]) ∧ es.length = [5, 3, 5, 8, 3].dedup.length :=
  ⟨by decide, insert_all_distinct 4 demo_seed [5, 3, 5, 8, 3] (by decide)⟩

/-- C8: in every reachable state the keys of the level-0 chain are strictly increasing, hence
pairwise distinct, and so are the keys of the chain of every level below `_current_height`. -/
theorem order_invariant (s : SkipList K) (hs : Reachable s) :
    (∃ ks, level_keys s 0 = some ks ∧ ks.Pairwise (· < ·) ∧ ks.Nodup) ∧
    ∀ l, l < s._current_height →
      ∃ ks, level_keys s l = some ks ∧ ks.Pairwise (· < ·) := by
  obtain ⟨L, hL⟩ := hs.rep
  refine ⟨⟨_, hL.keys_zero, hL.keys_sorted, hL.keys_sorted.imp ne_of_lt⟩, ?_⟩
  intro l hl
  refine ⟨_, by
    simp only [level_keys, hL.level_entries_eq (lt_of_lt_of_le hl hL.height_le),
      Option.map_some']; rfl, ?_⟩
  rw [List.map_map]
  exact List.pairwise_map.2 (hL.sorted.sublist (List.filter_sublist _))

theorem order_invariant_witness :
    Reachable demo ∧
    (∃ ks, level_keys demo 0 = some ks ∧ ks.Pairwise (· < ·) ∧ ks.Nodup) ∧
    ∀ l, l < demo._current_height →
      ∃ ks, level_keys demo l = some ks ∧ ks.Pairwise (· < ·) :=
  ⟨reachable_demo, order_invariant demo reachable_demo⟩

/-- C9: in every reachable state `_current_height` is the largest height among the entries of
the level-0 chain, is 0 when that chain is empty, and is at most `_max_height`. -/
theorem height_invariant (s : SkipList K) (hs : Reachable s) :
    ∃ es, level_entries s 0 = some es ∧
      s._current_height = (es.map Prod.snd).foldr max 0 ∧
      (es = [] → s._current_height = 0) ∧
      s._current_height ≤ s._max_height := by
  obtain ⟨L, hL⟩ := hs.rep
  refine ⟨_, hL.entries_zero, ?_, ?_, hL.height_le⟩
  · rw [hL.height_eq, top_height_eq_foldr]
  · intro he
    rw [hL.height_eq, top_height_eq_foldr, he]
    rfl

theorem height_invariant_witness :
    Reachable demo_2 ∧ ∃ es, level_entries demo_2 0 = some es ∧
      demo_2._current_height = (es.map Prod.snd).foldr max 0 ∧
      (es = [] → demo_2._current_height = 0) ∧
      demo_2._current_height ≤ demo_2._max_height :=
  ⟨reachable_demo_2, height_invariant demo_2 reachable_demo_2⟩

/-- C11: on a reachable state, `remove(k)` of a stored key returns true and leaves
`_current_height` equal to the largest height among the remaining entries (0 when none
remains), so in particular when the removed entry was the only one of height
`_current_height`; the loop is entered with `_current_height ≥ 1`, and every value it
decrements, or reads the head one level below, is at least 1 (no wrap-around). -/
theorem shrink_correct (s : SkipList K) (hs : Reachable s) (k : K) (es : List (K × Nat))
    (hes : level_entries s 0 = some es) (hk : k ∈ es.map Prod.fst) :
    ∃ t A h B top, remove s k = some (true, t) ∧ es = A ++ (k, h) :: B ∧
      level_entries t 0 = some (A ++ B) ∧
      t._current_height = ((A ++ B).map Prod.snd).foldr max 0 ∧
      (A ++ B = [] → t._current_height = 0) ∧
      t._current_height ≤ s._current_height ∧
      1 ≤ s._current_height ∧
      get_next t.mem s._head_node (size_dec s._current_height) = some top ∧
      shrink_loop t.mem s._head_node (s._current_height + 1) s._current_height top
        = some t._current_height ∧
      ∀ c ∈ shrink_trace t.mem s._head_node (s._current_height + 1) s._current_height top,
        1 ≤ c := by
  obtain ⟨L, hL⟩ := hs.rep
  rw [hL.entries_zero, Option.some.injEq] at hes
  subst hes
  rw [map_pair_fst] at hk
  obtain ⟨x, B, hd, hx⟩ := dropWhile_of_mem hL.sorted (mem_keys_iff.1 hk)
  obtain ⟨t, ht, hrep, _, hmh, hhd, _, _⟩ := hL.remove_present hd hx
  have hsplit := List.takeWhile_append_dropWhile (fun e => decide (e.key < k)) L
  rw [hd] at hsplit
  have hxL : x ∈ L := dropWhile_mem hd
  have hx1 : 1 ≤ x.height := (hL.bounds x hxL).2.2.1
  have hch : 1 ≤ s._current_height := by
    rw [hL.height_eq]; exact le_trans hx1 (le_top_height hxL)
  have hle := hL.height_le
  have hent : level_entries t 0 = some
      ((L.takeWhile fun e => decide (e.key < k)).map (fun e => (e.key, e.height)) ++
        B.map fun e => (e.key, e.height)) := by
    rw [hrep.entries_zero, del_split hd]
    simp
  have htop : t._current_height =
      (((L.takeWhile fun e => decide (e.key < k)).map (fun e => (e.key, e.height)) ++
        B.map fun e => (e.key, e.height)).map Prod.snd).foldr max 0 := by
    rw [hrep.height_eq, top_height_eq_foldr, del_split hd]
    simp
  have htle : t._current_height ≤ s._current_height := by
    rw [hrep.height_eq, hL.height_eq]
    exact top_height_le fun e he => le_top_height ((del_sublist k L).subset he)
  have hdec : size_dec s._current_height = s._current_height - 1 := size_dec_pos hch
  have hnext : ∀ l, l < s._max_height →
      get_next t.mem s._head_node l = some (first_at l (del k L)) := by
    intro l hl
    rw [← hhd]
    exact hrep.head_next (by rw [hmh]; exact hl)
  refine ⟨t, _, x.height, _, first_at (s._current_height - 1) (del k L), ht, ?_, hent, htop, ?_,
    htle, hch, ?_, ?_, ?_⟩
  · conv_lhs => rw [← hsplit]
    simp [hx]
  · intro he
    rw [htop, he]
    rfl
  · rw [hdec]
    exact hnext _ (by omega)
  · rw [hrep.height_eq]
    exact shrink_loop_eq t.mem s._head_node (del k L) s._max_height hnext _ _ hch hle
      (by rw [← hrep.height_eq]; exact htle) (Nat.le_succ _)
  · exact shrink_trace_pos t.mem s._head_node _ _ _ hch

theorem shrink_correct_witness :
    Reachable demo ∧ level_entries demo 0 = some [(3, 1), (5, 2), (8, 3)] ∧
    8 ∈ [(3, 1), (5, 2), (8, 3)].map Prod.fst ∧
    ∃ t A h B top, remove demo 8 = some (true, t) ∧ [(3, 1), (5, 2), (8, 3)] = A ++ (8, h) :: B ∧
      level_entries t 0 = some (A ++ B) ∧
      t._current_height = ((A ++ B).map Prod.snd).foldr max 0 ∧
      (A ++ B = [] → t._current_height = 0) ∧
      t._current_height ≤ demo._current_height ∧
      1 ≤ demo._current_height ∧
      get_next t.mem demo._head_node (size_dec demo._current_height) = some top ∧
      shrink_loop t.mem demo._head_node (demo._current_height + 1) demo._current_height top
        = some t._current_height ∧
      ∀ c ∈ shrink_trace t.mem demo._head_node (demo._current_height + 1)
        demo._current_height top, 1 ≤ c :=
  ⟨reachable_demo, by decide, by decide,
    shrink_correct demo reachable_demo 8 [(3, 1), (5, 2), (8, 3)] (by decide) (by decide)⟩

theorem keys_del {key : K} {t : Entry K} {B R : List (Entry K)}
    (hs : R.Pairwise fun a b => a.key < b.key)
    (hd : R.dropWhile (fun e => decide (e.key < key)) = t :: B) (ht : t.key = key) :
    (del key R).map Entry.key = (R.map Entry.key).filter fun x => decide (x ≠ key) := by
  have hsplit := List.takeWhile_append_dropWhile (fun e => decide (e.key < key)) R
  rw [hd] at hsplit
  rw [del_split hd]
  conv_rhs => rw [← hsplit]
  simp only [List.map_append, List.map_cons, List.filter_append, List.filter_cons, ht, ne_eq,
    not_true_eq_false, decide_False, Bool.false_eq_true, if_false]
  congr 1
  · symm
    apply List.filter_eq_self.2
    intro x hx
    obtain ⟨e, he, rfl⟩ := List.mem_map.1 hx
    simpa using ne_of_lt (takeWhile_lt key R e he)
  · symm
    apply List.filter_eq_self.2
    intro x hx
    obtain ⟨e, he, rfl⟩ := List.mem_map.1 hx
    simpa using ne_of_gt (tail_gt hs hd ht e he)

theorem Rep.remove_total {s : SkipList K} {L : List (Entry K)} (h : Rep s L) (k : K) :
    ∃ t L', remove s k = some (decide (k ∈ L.map Entry.key), t) ∧ Rep t L' ∧
      L'.map Entry.key = (L.map Entry.key).filter fun x => decide (x ≠ k) := by
  by_cases hk : k ∈ L.map Entry.key
  · obtain ⟨x, B, hd, hx⟩ := dropWhile_of_mem h.sorted (mem_keys_iff.1 hk)
    obtain ⟨t, ht, hrep, _⟩ := h.remove_present hd hx
    exact ⟨t, _, by rw [ht, decide_eq_true hk], hrep, keys_del h.sorted hd hx⟩
  · have hk' : ∀ e ∈ L, e.key ≠ k := fun e he hek => hk (mem_keys_iff.2 ⟨e, he, hek⟩)
    refine ⟨s, L, by rw [h.remove_absent hk', decide_eq_false hk], h, ?_⟩
    symm
    apply List.filter_eq_self.2
    intro x hx
    simp only [ne_eq, decide_eq_true_eq]
    rintro rfl
    exact hk hx

theorem remove_all_rep : ∀ (ks : List K) (s : SkipList K) (L : List (Entry K)), Rep s L →
    ∃ t L', remove_all s ks = some (remove_flags (L.map Entry.key) ks, t) ∧ Rep t L' ∧
      L'.map Entry.key = remove_keys (L.map Entry.key) ks := by
  intro ks
  induction ks with
  | nil => intro s L h; exact ⟨s, L, rfl, h, rfl⟩
  | cons k ks ih =>
    intro s L h
    obtain ⟨t, L1, ht, hrep, hkeys⟩ := h.remove_total k
    obtain ⟨u, L2, hu, hrep2, hkeys2⟩ := ih t L1 hrep
    refine ⟨u, L2, ?_, hrep2, ?_⟩
    · simp only [remove_all, ht, Option.some_bind, hu, Option.map_some', remove_flags, hkeys]
    · rw [hkeys2, hkeys]; rfl

theorem sorted_eq_of_mem {a b : List K} (ha : a.Pairwise (· < ·)) (hb : b.Pairwise (· < ·))
    (h : ∀ x, x ∈ a ↔ x ∈ b) : a = b :=
  List.eq_of_perm_of_sorted
    ((List.perm_ext_iff_of_nodup (ha.imp ne_of_lt) (hb.imp ne_of_lt)).2 h) ha hb

/-- C12: the scenario of the demo program, for every sequence of draws that holds nine stops:
after `insert(1)` .. `insert(9)` on a new list with `max_height = 32`, `contain(i)` is true
for `1 ≤ i ≤ 9` and false for `10 ≤ i ≤ 19`; `remove(5)` returns true, `contain(5)` is then
false and a second `remove(5)` returns false; and for every `n ≤ 8`, removing `1 .. n` in order
returns true each time and leaves exactly the keys `n+1 .. 9`, with `contain(9)` true. -/
theorem demo_scenario (seed : List Nat) (hseed : 9 ≤ stops seed) :
    ∃ s t, new 32 seed = some s ∧
      insert_all s [1, 2, 3, 4, 5, 6, 7, 8, (9 : Int)] = some (List.replicate 9 true, t) ∧
      level_keys t 0 = some [1, 2, 3, 4, 5, 6, 7, 8, 9] ∧
      (∀ i : Int, 1 ≤ i → i ≤ 9 → contain t i = some true) ∧
      (∀ i : Int, 10 ≤ i → i ≤ 19 → contain t i = some false) ∧
      (∃ u v, remove t 5 = some (true, u) ∧ contain u 5 = some false ∧
        remove u 5 = some (false, v)) ∧
      ∀ n, n ≤ 8 → ∃ w,
        remove_all t ((List.range' 1 n).map fun i => (i : Int)) = some (List.replicate n true, w) ∧
        level_keys w 0 = some ((List.range' (n + 1) (9 - n)).map fun i => (i : Int)) ∧
        contain w 9 = some true := by
  have h0 : Rep (K := Int) _ [] := Rep.init (by decide) (new_eq 32 seed)
  have hret := insert_all_returns [1, 2, 3, 4, 5, 6, 7, 8, (9 : Int)] _ [] h0 hseed
  obtain ⟨⟨bs, t⟩, hins⟩ := Option.isSome_iff_exists.1 hret
  obtain ⟨L, hL, hmem, hbs⟩ := insert_all_rep _ _ [] bs t h0 hins
  have hkeys : L.map Entry.key = [1, 2, 3, 4, 5, 6, 7, 8, 9] :=
    sorted_eq_of_mem hL.keys_sorted (by decide) (fun x => by simpa using hmem x)
  have hbs' : bs = List.replicate 9 true := by rw [hbs]; decide
  subst hbs'
  refine ⟨_, t, new_eq 32 seed, hins, by rw [hL.keys_zero, hkeys], ?_, ?_, ?_, ?_⟩
  · intro i h1 h9
    apply hL.contain_true
    apply mem_keys_iff.1
    rw [hkeys]
    have : i = 1 ∨ i = 2 ∨ i = 3 ∨ i = 4 ∨ i = 5 ∨ i = 6 ∨ i = 7 ∨ i = 8 ∨ i = 9 := by omega
    rcases this with rfl | rfl | rfl | rfl | rfl | rfl | rfl | rfl | rfl <;> decide
  · intro i h1 h9
    apply hL.contain_false
    intro e he hek
    have hm : i ∈ L.map Entry.key := mem_keys_iff.2 ⟨e, he, hek⟩
    rw [hkeys] at hm
    simp only [List.mem_cons, List.mem_singleton, List.not_mem_nil, or_false] at hm
    omega
  · obtain ⟨u, L1, hu, hrep1, hk1⟩ := hL.remove_total 5
    obtain ⟨v, L2, hv, _, _⟩ := hrep1.remove_total 5
    rw [hkeys] at hu hk1
    rw [hk1] at hv
    refine ⟨u, v, by rw [hu]; rfl, ?_, by rw [hv]; rfl⟩
    apply hrep1.contain_false
    intro e he hek
    have hm : (5 : Int) ∈ L1.map Entry.key := mem_keys_iff.2 ⟨e, he, hek⟩
    rw [hk1] at hm
    revert hm
    decide
  · intro n hn
    obtain ⟨w, Lw, hw, hrepw, hkw⟩ := remove_all_rep ((List.range' 1 n).map fun i => (i : Int)) t L hL
    rw [hkeys] at hw hkw
    refine ⟨w, ?_, ?_, ?_⟩
    · rw [hw]
      interval_cases n <;> rfl
    · rw [hrepw.keys_zero, hkw]
      interval_cases n <;> rfl
    · apply hrepw.contain_true
      apply mem_keys_iff.1
      rw [hkw]
      interval_cases n <;> decide

theorem demo_scenario_witness :
    9 ≤ stops [1, 0, 1, 1, 0, 0, 1, 1, 1, 0, 1, 1, 1, 1] ∧
    ∃ s t, new 32 [1, 0, 1, 1, 0, 0, 1, 1, 1, 0, 1, 1, 1, 1] = some s ∧
      insert_all s [1, 2, 3, 4, 5, 6, 7, 8, (9 : Int)] = some (List.replicate 9 true, t) ∧
      level_keys t 0 = some [1, 2, 3, 4, 5, 6, 7, 8, 9] ∧
      (∀ i : Int, 1 ≤ i → i ≤ 9 → contain t i = some true) ∧
      (∀ i : Int, 10 ≤ i → i ≤ 19 → contain t i = some false) ∧
      (∃ u v, remove t 5 = some (true, u) ∧ contain u 5 = some false ∧
        remove u 5 = some (false, v)) ∧
      ∀ n, n ≤ 8 → ∃ w,
        remove_all t ((List.range' 1 n).map fun i => (i : Int)) = some (List.replicate n true, w) ∧
        level_keys w 0 = some ((List.range' (n + 1) (9 - n)).map fun i => (i : Int)) ∧
        contain w 9 = some true :=
  ⟨by decide, demo_scenario [1, 0, 1, 1, 0, 0, 1, 1, 1, 0, 1, 1, 1, 1] (by decide)⟩

/-- C13 (the code at the failing input): with `max_height = 0` the constructor builds a
list; `insert(1)` returns true, `contain(1)` is false right after it, and a second
`insert(1)` returns true again. -/
theorem max_height_zero_insert_lost :
    ((new 0 [1, 1]).bind fun s =>
      (insert s (1 : Int)).bind fun r1 =>
      (contain r1.2 1).bind fun c1 =>
      (insert r1.2 1).bind fun r2 =>
      (contain r2.2 1).map fun c2 => (r1.1, c1, r2.1, c2))
      = some (true, false, true, false) := by
  decide

theorem Rep.print_levels_eq {s : SkipList K} {L : List (Entry K)} (h : Rep s L) :
    ∀ n, n ≤ s._max_height →
      print_levels s n = some (render_spec (L.map fun e => (e.key, e.height)) n) := by
  intro n
  induction n with
  | zero => intro _; rfl
  | succ n ih =>
    intro hn
    have hkeys : ((L.map fun e => (e.key, e.height)).filter fun e => decide (n + 1 ≤ e.2)).map
        Prod.fst = (L.filter fun e => decide (n < e.height)).map Entry.key := by
      rw [List.filter_map, List.map_map]
      rfl
    simp only [print_levels, size_dec_succ, h.head_next (show n < s._max_height by omega),
      Option.some_bind, print_chain_linked h.linked _ h.length_le, ih (by omega),
      Option.map_some', render_spec, render_line, hkeys]

/-- C14: on a reachable state `operator<<` writes, for each level from `_current_height`
down to 1, the prefix `Level L:`, then a space and the key for each entry of height at least
`L` in the order of the level-0 chain, then the end of line: `_current_height` lines in all,
the last one listing every stored key in increasing order, and nothing for an empty list. -/
theorem operator_out_spec (s : SkipList K) (hs : Reachable s) :
    ∃ es, level_entries s 0 = some es ∧
      operator_out s = some (render_spec es s._current_height) ∧
      (render_spec es s._current_height).countP Tok.is_endl = s._current_height ∧
      render_line es 1
        = [Tok.text "Level ", Tok.num 1, Tok.text ":"] ++ render_keys (es.map Prod.fst) ++
          [Tok.endl] ∧
      (es.map Prod.fst).Pairwise (· < ·) ∧
      (es = [] → operator_out s = some []) := by
  obtain ⟨L, hL⟩ := hs.rep
  have hout := hL.print_levels_eq s._current_height hL.height_le
  refine ⟨_, hL.entries_zero, hout, countP_render_spec _ _, ?_, ?_, ?_⟩
  · simp only [render_line]
    congr 4
    apply List.filter_eq_self.2
    intro e he
    obtain ⟨x, hx, rfl⟩ := List.mem_map.1 he
    simpa using (hL.bounds x hx).2.2.1
  · rw [map_pair_fst]
    exact hL.keys_sorted
  · intro he
    have h0 : s._current_height = 0 := by
      rw [hL.height_eq, top_height_eq_foldr, he]
      rfl
    rw [operator_out, h0]
    rfl

theorem operator_out_spec_witness :
    Reachable demo ∧ ∃ es, level_entries demo 0 = some es ∧
      operator_out demo = some (render_spec es demo._current_height) ∧
      (render_spec es demo._current_height).countP Tok.is_endl = demo._current_height ∧
      render_line es 1
        = [Tok.text "Level ", Tok.num 1, Tok.text ":"] ++ render_keys (es.map Prod.fst) ++
          [Tok.endl] ∧
      (es.map Prod.fst).Pairwise (· < ·) ∧
      (es = [] → operator_out demo = some []) :=
  ⟨reachable_demo, operator_out_spec demo reachable_demo⟩

/-- C15: for `max_height ≥ 1` and draws that hold a stop, `get_random_height` returns
`min (1 + c) max_height` with `c` the number of zero draws before the first stop, and leaves
the draws after that stop; the result is in `[1, max_height]`, and it is at least `k`
(`1 ≤ k ≤ max_height`) exactly when the first `k - 1` draws are all zero.  Hence every entry
of a reachable list has a height in `[1, _max_height]`. -/
theorem random_height_spec (max_height : Nat) (mt : List Nat) (hm : 1 ≤ max_height)
    (hstop : ∃ d ∈ mt, d ≠ 0) :
    get_random_height max_height mt
      = some (min (1 + (mt.takeWhile fun d => decide (d = 0)).length) max_height,
          (mt.dropWhile fun d => decide (d = 0)).tail) ∧
    1 ≤ min (1 + (mt.takeWhile fun d => decide (d = 0)).length) max_height ∧
    min (1 + (mt.takeWhile fun d => decide (d = 0)).length) max_height ≤ max_height ∧
    (∀ k, 1 ≤ k → k ≤ max_height →
      (k ≤ min (1 + (mt.takeWhile fun d => decide (d = 0)).length) max_height ↔
        ∀ i, i < k - 1 → mt[i]? = some 0)) ∧
    ∀ s : SkipList K, Reachable s →
      ∃ es, level_entries s 0 = some es ∧ ∀ e ∈ es, 1 ≤ e.2 ∧ e.2 ≤ s._max_height := by
  refine ⟨?_, by omega, by omega, ?_, ?_⟩
  · simp only [get_random_height, draw_height_eq mt 1 hstop, Option.map_some', Option.some.injEq,
      Prod.mk.injEq, and_true]
    split <;> omega
  · intro k h1 hk
    rw [← le_length_takeWhile_zero mt (k - 1)]
    omega
  · intro s hs
    obtain ⟨L, hL⟩ := hs.rep
    refine ⟨_, hL.entries_zero, ?_⟩
    intro e he
    obtain ⟨x, hx, rfl⟩ := List.mem_map.1 he
    exact ⟨(hL.bounds x hx).2.2.1, (hL.bounds x hx).2.2.2⟩

theorem random_height_spec_witness :
    1 ≤ 4 ∧ (∃ d ∈ [0, 0, 1, 0, 1], d ≠ 0) ∧
    get_random_height 4 [0, 0, 1, 0, 1]
      = some (min (1 + ([0, 0, 1, 0, 1].takeWhile fun d => decide (d = 0)).length) 4,
          ([0, 0, 1, 0, 1].dropWhile fun d => decide (d = 0)).tail) ∧
    1 ≤ min (1 + ([0, 0, 1, 0, 1].takeWhile fun d => decide (d = 0)).length) 4 ∧
    min (1 + ([0, 0, 1, 0, 1].takeWhile fun d => decide (d = 0)).length) 4 ≤ 4 ∧
    (∀ k, 1 ≤ k → k ≤ 4 →
      (k ≤ min (1 + ([0, 0, 1, 0, 1].takeWhile fun d => decide (d = 0)).length) 4 ↔
        ∀ i, i < k - 1 → [0, 0, 1, 0, 1][i]? = some 0)) ∧
    ∀ s : SkipList Nat, Reachable s →
      ∃ es, level_entries s 0 = some es ∧ ∀ e ∈ es, 1 ≤ e.2 ∧ e.2 ≤ s._max_height :=
  ⟨by decide, ⟨1, by decide, by decide⟩,
    random_height_spec 4 [0, 0, 1, 0, 1] (by decide) ⟨1, by decide, by decide⟩⟩

theorem pred_at_eq_last {l : Nat} {key : K} :
    ∀ (R : List (Entry K)) (node : Nat), R.Pairwise (fun a b => a.key < b.key) →
      pred_at l key node R =
        ((((R.filter fun e => decide (l < e.height)).filter fun e => decide (e.key < key)).map
          Entry.addr).getLast?).getD node := by
  intro R
  induction R with
  | nil => intro node _; rfl
  | cons e R ih =>
    intro node hs
    have hs' := List.pairwise_cons.1 hs
    by_cases hk : e.key < key
    · simp only [pred_at, hk, if_true]
      rw [ih _ hs'.2]
      by_cases hl : l < e.height
      · simp only [hl, if_true, List.filter_cons, decide_True, hk, List.map_cons]
        rw [getLast_cons_getD]
      · simp only [hl, if_false, List.filter_cons, decide_False, Bool.false_eq_true]
    · simp only [pred_at, hk, if_false]
      have : ((e :: R).filter fun e => decide (l < e.height)).filter
          (fun e => decide (e.key < key)) = [] := by
        apply List.filter_eq_nil_iff.2
        intro x hx
        have hx' := List.mem_of_mem_filter hx
        simp only [decide_eq_true_eq]
        rcases List.mem_cons.1 hx' with rfl | hx'
        · exact hk
        · exact fun h => hk (lt_trans (hs'.1 x hx') h)
      rw [this]
      rfl

theorem dropWhile_ge {key : K} {R : List (Entry K)}
    (hs : R.Pairwise fun a b => a.key < b.key) :
    ∀ x ∈ R.dropWhile (fun e => decide (e.key < key)), key ≤ x.key := by
  induction R with
  | nil => intro x hx; simp at hx
  | cons e R ih =>
    have hs' := List.pairwise_cons.1 hs
    intro x hx
    by_cases hlt : e.key < key
    · simp only [List.dropWhile, hlt, decide_True] at hx
      exact ih hs'.2 x hx
    · simp only [List.dropWhile, hlt, decide_False] at hx
      rcases List.mem_cons.1 hx with rfl | hx
      · exact not_lt.1 hlt
      · exact le_trans (not_lt.1 hlt) (le_of_lt (hs'.1 x hx))

theorem Rep.last_below_eq {s : SkipList K} {L : List (Entry K)} (h : Rep s L) (l : Nat) (k : K) :
    last_below s ((L.filter fun e => decide (l < e.height)).map Entry.addr) k
      = pred_at l k s._head_node L := by
  rw [pred_at_eq_last L _ h.sorted, last_below, List.filter_map]
  congr 3
  apply List.filter_congr
  intro e he
  obtain ⟨R2, hR2⟩ := h.linked.mem_node e (List.mem_of_mem_filter he)
  simp [get_key_node_of hR2]

/-- C16: on a reachable state, `find_largest_lower_bound(prev, k)` returns, and for every level
`l < _current_height` it has written in `prev[l]` the last node of the chain of level `l` whose
key is below `k` (the head when there is none), whose successor at level `l` is null or has a
key not below `k`; the slots from `_current_height` on are as they were, and on an empty list
`prev` as a whole is as it was. -/
theorem lower_bound_postcondition (s : SkipList K) (hs : Reachable s) (k : K) (prev : PrevArr)
    (hp : prev.size = s._max_height) :
    ∃ out, find_largest_lower_bound s prev k = some out ∧ out.size = prev.size ∧
      (∀ l, l < s._current_height → ∃ c nx, chain s l = some c ∧
        out.slot l = some (last_below s c k) ∧
        get_next s.mem (last_below s c k) l = some nx ∧
        ∀ a, nx = some a → ∃ x, get_key s.mem a = some x ∧ k ≤ x) ∧
      (∀ l, s._current_height ≤ l → out.slot l = prev.slot l) ∧
      (s._current_height = 0 → out = prev) := by
  obtain ⟨L, hL⟩ := hs.rep
  obtain ⟨out, ho, hsz, hlo, hhi⟩ := hL.fllb_eq k prev hp
  refine ⟨out, ho, hsz, ?_, hhi, ?_⟩
  · intro l hl
    have hlm : l < s._max_height := lt_of_lt_of_le hl hL.height_le
    have hpn : ∃ n, s.mem (pred_at l k s._head_node L) = some n ∧ l < n._height ∧
        n._next l = some (first_at l (L.dropWhile fun e => decide (e.key < k))) :=
      pred_at_node L s._head_node hL.linked
        ⟨_, hL.head_node, hlm, by simp [node_of, hlm]⟩
    obtain ⟨n, hn, hln, hnx⟩ := hpn
    refine ⟨_, first_at l (L.dropWhile fun e => decide (e.key < k)), hL.chain_eq hlm,
      by rw [hL.last_below_eq, hlo l hl], ?_, ?_⟩
    · rw [hL.last_below_eq]
      simp only [get_next, hn, Option.some_bind, Node.get_next, hln, if_true, hnx]
    · intro a ha
      obtain ⟨R1, e, R2, hsplit, rfl, _, _⟩ := first_at_split ha
      have he : e ∈ L.dropWhile fun e => decide (e.key < k) := by rw [hsplit]; simp
      have heL : e ∈ L := (List.dropWhile_sublist _).subset he
      obtain ⟨R3, hR3⟩ := hL.linked.mem_node e heL
      exact ⟨e.key, get_key_node_of hR3, dropWhile_ge hL.sorted e he⟩
  · intro h0
    simp only [SkipList.find_largest_lower_bound, h0, if_true, Option.some.injEq] at ho
    exact ho.symm

theorem lower_bound_postcondition_witness :
    Reachable demo ∧ (PrevArr.fresh 4).size = demo._max_height ∧
    ∃ out, find_largest_lower_bound demo (PrevArr.fresh 4) 6 = some out ∧
      out.size = (PrevArr.fresh 4).size ∧
      (∀ l, l < demo._current_height → ∃ c nx, chain demo l = some c ∧
        out.slot l = some (last_below demo c 6) ∧
        get_next demo.mem (last_below demo c 6) l = some nx ∧
        ∀ a, nx = some a → ∃ x, get_key demo.mem a = some x ∧ 6 ≤ x) ∧
      (∀ l, demo._current_height ≤ l → out.slot l = (PrevArr.fresh 4).slot l) ∧
      (demo._current_height = 0 → out = PrevArr.fresh 4) :=
  ⟨reachable_demo, by decide,
    lower_bound_postcondition demo reachable_demo 6 (PrevArr.fresh 4) (by decide)⟩

/-- C17: on a reachable state with `_current_height ≥ 1`, `contain(k)` is true exactly when
the node `prev[0]->get_next(0)` found by `find_largest_lower_bound` is not null and has key
`k`; on an empty list `contain(k)` is false. -/
theorem contain_agrees_traversal (s : SkipList K) (hs : Reachable s) (k : K) :
    ∃ out p0 nx, find_largest_lower_bound s (PrevArr.fresh s._max_height) k = some out ∧
      (1 ≤ s._current_height → out.read 0 = some p0 ∧ get_next s.mem p0 0 = some nx ∧
        contain s k = some (match nx with
          | none => false
          | some a => decide (get_key s.mem a = some k))) ∧
      (s._current_height = 0 → contain s k = some false) := by
  obtain ⟨L, hL⟩ := hs.rep
  obtain ⟨out, ho, hsz, hlo, _⟩ := hL.fllb_eq k (PrevArr.fresh s._max_height) rfl
  have hpos : 0 < s._max_height := hL.max_pos
  have hpn : ∃ n, s.mem (pred_at 0 k s._head_node L) = some n ∧ 0 < n._height ∧
      n._next 0 = some (first_at 0 (L.dropWhile fun e => decide (e.key < k))) :=
    pred_at_node L s._head_node hL.linked
      ⟨_, hL.head_node, hpos, by simp [node_of, hpos]⟩
  obtain ⟨n, hn, hln, hnx⟩ := hpn
  refine ⟨out, pred_at 0 k s._head_node L,
    first_at 0 (L.dropWhile fun e => decide (e.key < k)), ho, ?_, ?_⟩
  · intro hch
    refine ⟨?_, ?_, ?_⟩
    · have h0 : 0 < out.size := by rw [hsz]; exact hL.max_pos
      simp only [PrevArr.read, h0, if_true]
      exact hlo 0 hch
    · simp only [get_next, hn, Option.some_bind, Node.get_next, hln, if_true, hnx]
    · cases hD : L.dropWhile (fun e => decide (e.key < k)) with
      | nil =>
        simp only [first_at]
        apply hL.contain_false
        intro e he
        have hsplit := List.takeWhile_append_dropWhile (fun e => decide (e.key < k)) L
        rw [hD, List.append_nil] at hsplit
        rw [← hsplit] at he
        exact ne_of_lt (takeWhile_lt k L e he)
      | cons t B =>
        have htL : t ∈ L := dropWhile_mem hD
        have ht1 : 0 < t.height := (hL.bounds t htL).2.2.1
        obtain ⟨R3, hR3⟩ := hL.linked.mem_node t htL
        simp only [first_at, ht1, if_true, get_key_node_of hR3, Option.some.injEq]
        rw [hL.contain_eq k]
        congr 1
        apply decide_eq_decide.2
        constructor
        · intro hk
          obtain ⟨t', B', hd', ht'⟩ := dropWhile_of_mem hL.sorted hk
          rw [hD, List.cons.injEq] at hd'
          rw [hd'.1]; exact ht'
        · intro hk
          exact ⟨t, htL, hk⟩
  · intro h0
    simp [SkipList.contain, SkipList.contain_times, h0]

theorem contain_agrees_traversal_witness :
    Reachable demo_2 ∧
    ∃ out p0 nx, find_largest_lower_bound demo_2 (PrevArr.fresh demo_2._max_height) 5 = some out ∧
      (1 ≤ demo_2._current_height → out.read 0 = some p0 ∧ get_next demo_2.mem p0 0 = some nx ∧
        contain demo_2 5 = some (match nx with
          | none => false
          | some a => decide (get_key demo_2.mem a = some 5))) ∧
      (demo_2._current_height = 0 → contain demo_2 5 = some false) :=
  ⟨reachable_demo_2, contain_agrees_traversal demo_2 reachable_demo_2 5⟩

theorem del_ins (new : Entry K) : ∀ R : List (Entry K), del new.key (ins new R) = R := by
  intro R
  induction R with
  | nil => simp [ins, del]
  | cons x R ih =>
    by_cases hx : x.key < new.key
    · simp [ins, del, hx, ih]
    · simp [ins, del, hx]

theorem Rep.mem_eq {s u : SkipList K} {L : List (Entry K)} (h : Rep s L) (h' : Rep u L)
    (hh : u._head_node = s._head_node) (hm : u._max_height = s._max_height) :
    u.mem = s.mem := by
  funext x
  by_cases hx : x = s._head_node
  · rw [hx, h.head_node, ← hh, h'.head_node, hm]
  · by_cases hxL : x ∈ L.map Entry.addr
    · exact h'.linked.unique h.linked x hxL
    · rw [h.free x hx hxL, h'.free x (by rw [hh]; exact hx) hxL]

theorem Rep.level_entries_none {s : SkipList K} {L : List (Entry K)} (h : Rep s L) {l : Nat}
    (hl : ¬ l < s._max_height) : level_entries s l = none ∧ chain s l = none := by
  have : get_next s.mem s._head_node l = none := by
    simp [get_next, h.head_node, Node.get_next, node_of, hl]
  simp [SkipList.level_entries, SkipList.chain, this]

/-- C18: on a reachable state holding `n` entries, `contain(k)` returns with a counter `times`
of at most `n + _current_height` (hence at most `n + _max_height`), which is 0 on an empty
list; and started as `contain` and `find_largest_lower_bound` start them, their `while (1)`
loops return within `n + _current_height` iterations. -/
theorem bounded_traversal (s : SkipList K) (hs : Reachable s) (k : K) :
    ∃ es b t, level_entries s 0 = some es ∧ contain_times s k = some (b, t) ∧
      t ≤ es.length + s._current_height ∧ t ≤ es.length + s._max_height ∧
      (es = [] → t = 0) ∧
      ∀ next prev, 1 ≤ s._current_height →
        get_next s.mem s._head_node (size_dec s._current_height) = some next →
        prev.size = s._max_height →
        (contain_loop s.mem k (es.length + s._current_height) (size_dec s._current_height)
          s._head_node next 0).isSome ∧
        (fllb_loop s.mem k (es.length + s._current_height) prev (size_dec s._current_height)
          s._head_node next).isSome := by
  obtain ⟨L, hL⟩ := hs.rep
  obtain ⟨t, ht, hb⟩ := hL.contain_times_eq k
  have hle := hL.height_le
  refine ⟨_, _, t, hL.entries_zero, ht, by simpa using hb, by simp; omega, ?_, ?_⟩
  · intro he
    have hnil : L = [] := by simpa using he
    subst hnil
    simp only [List.length_nil] at hb
    have h0 : s._current_height = 0 := hL.height_eq
    omega
  · intro next prev hch hnext hp
    have hd : size_dec s._current_height = s._current_height - 1 := size_dec_pos hch
    rw [hd] at hnext ⊢
    rw [hL.head_next (by omega), Option.some.injEq] at hnext
    subst hnext
    simp only [List.length_map]
    obtain ⟨t', ht', _⟩ := contain_loop_linked s.mem k (L.length + s._current_height) L
      (s._current_height - 1) s._head_node 0 hL.linked hL.sorted
      (fun e he => (hL.bounds e he).2.2.1) (fun l hl => hL.head_next (by omega)) (by omega)
    obtain ⟨out, ho, _⟩ := fllb_loop_linked s.mem k (L.length + s._current_height) L
      (s._current_height - 1) s._head_node prev hL.linked hL.sorted
      (fun l hl => hL.head_next (by omega)) (by omega) (by omega)
    rw [ht', ho]
    exact ⟨rfl, rfl⟩

theorem bounded_traversal_witness :
    Reachable demo ∧
    ∃ es b t, level_entries demo 0 = some es ∧ contain_times demo 9 = some (b, t) ∧
      t ≤ es.length + demo._current_height ∧ t ≤ es.length + demo._max_height ∧
      (es = [] → t = 0) ∧
      ∀ next prev, 1 ≤ demo._current_height →
        get_next demo.mem demo._head_node (size_dec demo._current_height) = some next →
        prev.size = demo._max_height →
        (contain_loop demo.mem 9 (es.length + demo._current_height)
          (size_dec demo._current_height) demo._head_node next 0).isSome ∧
        (fllb_loop demo.mem 9 (es.length + demo._current_height) prev
          (size_dec demo._current_height) demo._head_node next).isSome :=
  ⟨reachable_demo, bounded_traversal demo reachable_demo 9⟩

theorem Rep.insert_returns {s : SkipList K} {L : List (Entry K)} (h : Rep s L) (k : K)
    (hg : (get_random_height s._max_height s._mt).isSome) : (insert s k).isSome := by
  by_cases hk : ∃ e ∈ L, e.key = k
  · rw [h.insert_present hk]
    rfl
  · have hk' : ∀ e ∈ L, e.key ≠ k := fun e he hek => hk ⟨e, he, hek⟩
    obtain ⟨r, hr⟩ := Option.isSome_iff_exists.1 hg
    obtain ⟨r1, r2⟩ := r
    obtain ⟨u, hu, _⟩ := h.insert_absent hk' hr
    rw [hu]
    rfl

/-- C19: on a reachable state `contain`, `find_largest_lower_bound` and `remove` return, and
`insert` returns whenever the generator yields a height: no run dereferences a null or freed
node, reads or writes `_next[i]` outside a node, indexes `prev` at or above `_max_height`, or
reads a slot of `prev` it has not written (each of these makes the model return `none`).
Every stored entry has a height of at most `_current_height`, which `remove` relies on. -/
theorem access_safety (s : SkipList K) (hs : Reachable s) (k : K) :
    (contain s k).isSome ∧
    (find_largest_lower_bound s (PrevArr.fresh s._max_height) k).isSome ∧
    (remove s k).isSome ∧
    ((get_random_height s._max_height s._mt).isSome → (insert s k).isSome) ∧
    ∃ es, level_entries s 0 = some es ∧ ∀ e ∈ es, e.2 ≤ s._current_height := by
  obtain ⟨L, hL⟩ := hs.rep
  obtain ⟨out, ho, _⟩ := hL.fllb_eq k (PrevArr.fresh s._max_height) rfl
  obtain ⟨t, L', ht, _⟩ := hL.remove_total k
  refine ⟨by rw [hL.contain_eq k]; rfl, by rw [ho]; rfl, by rw [ht]; rfl,
    hL.insert_returns k, _, hL.entries_zero, ?_⟩
  intro e he
  obtain ⟨x, hx, rfl⟩ := List.mem_map.1 he
  rw [hL.height_eq]
  exact le_top_height hx

theorem access_safety_witness :
    Reachable demo_1 ∧
    (contain demo_1 4).isSome ∧
    (find_largest_lower_bound demo_1 (PrevArr.fresh demo_1._max_height) 4).isSome ∧
    (remove demo_1 4).isSome ∧
    ((get_random_height demo_1._max_height demo_1._mt).isSome → (insert demo_1 4).isSome) ∧
    ∃ es, level_entries demo_1 0 = some es ∧ ∀ e ∈ es, e.2 ≤ demo_1._current_height :=
  ⟨reachable_demo_1, access_safety demo_1 reachable_demo_1 4⟩

/-- C20: on a reachable state where the generator yields the height `h`, for a key `k` that
is not stored, `insert(k)` and then `remove(k)` both return true and give back the memory,
the head, `_current_height` and `_max_height` of the start, hence the same chain and the same
entries at every level; the generator is the one left by the draw. -/
theorem insert_remove_restores (s : SkipList K) (hs : Reachable s) (k : K) (h : Nat)
    (mt : List Nat) (hd : get_random_height s._max_height s._mt = some (h, mt))
    (es : List (K × Nat)) (hes : level_entries s 0 = some es) (hk : k ∉ es.map Prod.fst) :
    ∃ t u, insert s k = some (true, t) ∧ remove t k = some (true, u) ∧
      u.mem = s.mem ∧ u._head_node = s._head_node ∧
      u._current_height = s._current_height ∧ u._max_height = s._max_height ∧ u._mt = mt ∧
      ∀ l, level_entries u l = level_entries s l ∧ chain u l = chain s l := by
  obtain ⟨L, hL⟩ := hs.rep
  rw [hL.entries_zero, Option.some.injEq] at hes
  subst hes
  rw [map_pair_fst] at hk
  have hk' : ∀ e ∈ L, e.key ≠ k := fun e he hek => hk (mem_keys_iff.2 ⟨e, he, hek⟩)
  obtain ⟨t, ht, hrep, hmt, hmh, hhd, _⟩ := hL.insert_absent hk' hd
  obtain ⟨x, B, hdw, hx⟩ := dropWhile_of_mem hrep.sorted
    ⟨_, mem_ins.2 (Or.inl rfl), (rfl : (Entry.mk s.brk k h).key = k)⟩
  obtain ⟨u, hu, hrepu, hmt2, hmh2, hhd2, _⟩ := hrep.remove_present hdw hx
  have hdel : del k (ins (Entry.mk s.brk k h) L) = L := del_ins (Entry.mk s.brk k h) L
  rw [hdel] at hrepu
  have hhead : u._head_node = s._head_node := by rw [hhd2, hhd]
  have hmax : u._max_height = s._max_height := by rw [hmh2, hmh]
  refine ⟨t, u, ht, hu, Rep.mem_eq hL hrepu hhead hmax, hhead, ?_, hmax, by rw [hmt2, hmt], ?_⟩
  · rw [hrepu.height_eq, hL.height_eq]
  · intro l
    by_cases hl : l < s._max_height
    · rw [hrepu.level_entries_eq (by rw [hmax]; exact hl), hL.level_entries_eq hl,
        hrepu.chain_eq (by rw [hmax]; exact hl), hL.chain_eq hl]
      exact ⟨rfl, rfl⟩
    · rw [(hrepu.level_entries_none (by rw [hmax]; exact hl)).1,
        (hrepu.level_entries_none (by rw [hmax]; exact hl)).2,
        (hL.level_entries_none hl).1, (hL.level_entries_none hl).2]
      exact ⟨rfl, rfl⟩

theorem insert_remove_restores_witness :
    Reachable demo_2 ∧
    get_random_height demo_2._max_height demo_2._mt = some (3, [1, 1, 0, 0, 0, 0, 1]) ∧
    level_entries demo_2 0 = some [(3, 1), (5, 2)] ∧ 4 ∉ [(3, 1), (5, 2)].map Prod.fst ∧
    ∃ t u, insert demo_2 4 = some (true, t) ∧ remove t 4 = some (true, u) ∧
      u.mem = demo_2.mem ∧ u._head_node = demo_2._head_node ∧
      u._current_height = demo_2._current_height ∧ u._max_height = demo_2._max_height ∧
      u._mt = [1, 1, 0, 0, 0, 0, 1] ∧
      ∀ l, level_entries u l = level_entries demo_2 l ∧ chain u l = chain demo_2 l :=
  ⟨reachable_demo_2, by decide, by decide, by decide,
    insert_remove_restores demo_2 reachable_demo_2 4 3 [1, 1, 0, 0, 0, 0, 1] (by decide)
      [(3, 1), (5, 2)] (by decide) (by decide)⟩

end Claims

end SkipList
